import Mathlib

/-!
Verification of the bookmark subsystem of `src/bookmarks.c`.

Strings are embedded as `List Char`.  Machine integers: ids and icons are
`Nat` (uint32 overflow never reached by any property here), sort orders are
`Int` (the C field is a signed int).  Timestamps are embedded as the
`timespec` pair of whole seconds and nanoseconds.
-/

/-- Word characters in the sense of the regexp `\b` assertion: `[A-Za-z0-9_]`. -/
def isWordChar (c : Char) : Bool :=
  c.isAlpha || c.isDigit || c = '_'

/-- Whitespace in the sense of `isspace` and the regexp `\s` class. -/
def isSpaceC (c : Char) : Bool :=
  c = ' ' || (9 ≤ c.toNat && c.toNat ≤ 13)

/-- Whether `pat` occurs at the start of `s`. -/
def isPrefixL : List Char → List Char → Bool
  | [], _ => true
  | _ :: _, [] => false
  | p :: ps, c :: cs => p = c && isPrefixL ps cs

/-- First index at which `pat` occurs as a contiguous substring of `s`
(the embedding of `indexOfCStr_String`). -/
def findSub (pat : List Char) : List Char → Option Nat
  | [] => if pat = [] then some 0 else none
  | c :: cs =>
      if isPrefixL pat (c :: cs) then some 0
      else (findSub pat cs).map (· + 1)

/-- Trim whitespace from both ends (the embedding of `trim_String`). -/
def trimL (s : List Char) : List Char :=
  ((s.dropWhile isSpaceC).reverse.dropWhile isSpaceC).reverse

/-- Trim whitespace from the end only (the embedding of `trimEnd_Rangecc`). -/
def trimEndL (s : List Char) : List Char :=
  (s.reverse.dropWhile isSpaceC).reverse

/-- Whether the character at index `i` of `s` is a word character
(`false` past the end). -/
def wordAt (s : List Char) (i : Nat) : Bool :=
  match s.drop i with
  | [] => false
  | c :: _ => isWordChar c

/-- The regexp `\b` word-boundary assertion holds at position `i` of `s`. -/
def boundary (s : List Char) (i : Nat) : Bool :=
  (match i with
   | 0 => false
   | j + 1 => wordAt s j) != wordAt s i

/-- The literal `t` occurs at position `i` of `s`. -/
def matchesAt (s t : List Char) (i : Nat) : Bool :=
  isPrefixL t (s.drop i)

/-- The embedding of `hasTag_Bookmark`'s regexp test: the pattern
`\b<tag>\b` (tag taken literally, as for every tag this program uses)
matches somewhere in `s`. -/
def hasTagL (s t : List Char) : Bool :=
  (List.range (s.length + 1)).any fun i =>
    boundary s i && matchesAt s t i && boundary s (i + t.length)

/-- The embedding of `addTag_Bookmark` on the tag string: append the tag,
separated by one space when the string is non-empty. -/
def addTagL (tags t : List Char) : List Char :=
  if tags = [] then t else tags ++ ' ' :: t

/-- The embedding of `removeTag_Bookmark` on the tag string: delete the
first literal occurrence of the tag substring, then trim whitespace. -/
def removeTagL (tags t : List Char) : List Char :=
  match findSub t tags with
  | none => tags
  | some i => trimL (tags.take i ++ tags.drop (i + t.length))

/-- A bookmark record (`struct Impl_Bookmark`): the hash key `id`, the
string fields, the icon code point, the creation `timespec`, the parent
folder id and the sort order. -/
structure Bookmark where
  id : Nat
  url : List Char
  title : List Char
  tags : List Char
  icon : Nat
  whenSec : Int
  whenNsec : Nat
  parentId : Nat
  order : Int
deriving Repr, DecidableEq

def hasTag_Bookmark (bm : Bookmark) (t : List Char) : Bool :=
  hasTagL bm.tags t

def addTag_Bookmark (bm : Bookmark) (t : List Char) : Bookmark :=
  { bm with tags := addTagL bm.tags t }

def removeTag_Bookmark (bm : Bookmark) (t : List Char) : Bookmark :=
  { bm with tags := removeTagL bm.tags t }

/-- Modelled from the spec: `hasParent_Bookmark` (declared in
`bookmarks.h`, which is not part of the sampled sources) tests whether the
bookmark's direct `parentId` equals the given id — the cascade in
`remove_Bookmarks` is one level deep. -/
def hasParent_Bookmark (bm : Bookmark) (i : Nat) : Bool :=
  bm.parentId == i

/-! ## URL helpers

`urlRoot_String`, `urlHost_String`, `canonicalUrl_String` and
`absoluteUrl_String` live in parts of the repository outside the sampled
sources, so they are modelled from the spec. -/

/-- The literal separator between a URL's scheme and its authority. -/
def schemeSep : List Char := ['/', '/']

/-- Index just past `"://"` in `u`, when a scheme is present. -/
def schemeEnd (u : List Char) : Option Nat :=
  (findSub (':' :: schemeSep) u).map (· + 3)

/-- Modelled from the spec: the "root" of a URL is its scheme+host part,
everything up to the first `/` after `"://"`. -/
def urlRootOf (u : List Char) : List Char :=
  match schemeEnd u with
  | none => u
  | some i => u.take i ++ (u.drop i).takeWhile (fun c => c ≠ '/')

/-- Modelled from the spec: the host of a URL (empty for a relative URL). -/
def urlHost (u : List Char) : List Char :=
  match schemeEnd u with
  | none => []
  | some i => (u.drop i).takeWhile (fun c => c ≠ '/' && c ≠ ':')

/-- Whether `pat` occurs at the end of `s`. -/
def isSuffixL (pat s : List Char) : Bool :=
  isPrefixL pat.reverse s.reverse

/-- Modelled from the spec: a canonical URL has the scheme's default port
stripped (`:1965`, the Gemini default) and an explicit `/` path when the
path is empty. -/
def canonicalUrl (u : List Char) : List Char :=
  match schemeEnd u with
  | none => u
  | some _ =>
      let root := urlRootOf u
      let rest := u.drop root.length
      let root' := if isSuffixL (':' :: "1965".toList) root
                   then root.take (root.length - 5) else root
      if rest = [] then root' ++ ['/'] else root' ++ rest

/-- The document's directory: the prefix of `base` up to and including the
last `/`. -/
def dirOf (base : List Char) : List Char :=
  (base.reverse.dropWhile (fun c => c ≠ '/')).reverse

/-- Modelled from the spec: resolve a discovered URL to an absolute form
relative to the fetched document — absolute URLs pass through, a leading
`/` is relative to the base's root, anything else to the base's
directory. -/
def absoluteUrl (base u : List Char) : List Char :=
  if (schemeEnd u).isSome then u
  else match u with
    | '/' :: _ => urlRootOf base ++ u
    | _ => dirOf base ++ u

/-- Case-insensitive string equality (the embedding of
`equalCase_String` / `equalRangeCase_Rangecc`). -/
def eqNoCase (a b : List Char) : Bool :=
  a.map Char.toLower == b.map Char.toLower

/-! ## The bookmark store -/

/-- The store (`struct Impl_Bookmarks`): the id allocator, the hash of
bookmarks (embedded as a list whose elements carry their hash key in
`Bookmark.id`) and the recent-folder scalar. -/
structure Bookmarks where
  idEnum : Nat
  bookmarks : List Bookmark
  recentFolderId : Nat
deriving Repr, DecidableEq

/-- The embedding of `remove_Hash`: detach the first element keyed `i`,
returning it together with the remaining list. -/
def remove_Hash : List Bookmark → Nat → Option Bookmark × List Bookmark
  | [], _ => (none, [])
  | b :: bs, i =>
      if b.id = i then (some b, bs)
      else
        let r := remove_Hash bs i
        (r.1, b :: r.2)

/-- The embedding of `insert_Hash` keyed by `Bookmark.id`: replace the
element with the same key if present, otherwise add the new element. -/
def insertHash (s : List Bookmark) (bm : Bookmark) : List Bookmark :=
  if s.any (fun b => b.id == bm.id) then
    s.map (fun b => if b.id = bm.id then bm else b)
  else s ++ [bm]

/-- Update the bookmark stored under key `i` in place. -/
def updateById (s : List Bookmark) (i : Nat) (f : Bookmark → Bookmark) : List Bookmark :=
  s.map (fun b => if b.id = i then f b else b)

/-- Remove each listed bookmark from the hash by its id, as the loop over
`list_Bookmarks(d, NULL, filterInsideFolder_Bookmark, bm)` does (that call
sorts the children by creation time first; the embedding keeps list order,
which cannot change the resulting set since each child is removed by its
unique key). -/
def removeEach (s : List Bookmark) (cs : List Bookmark) : List Bookmark :=
  cs.foldl (fun acc c => (remove_Hash acc c.id).2) s

/-- The embedding of `remove_Bookmarks`: detach the record keyed `i`; when
present, also remove every bookmark satisfying `filterInsideFolder_Bookmark`
(direct children of the removed record); return whether anything was
detached. -/
def remove_Bookmarks (s : List Bookmark) (i : Nat) : Bool × List Bookmark :=
  match remove_Hash s i with
  | (none, _) => (false, s)
  | (some bm, rest) =>
      let children := rest.filter (fun b => hasParent_Bookmark b bm.id)
      (true, removeEach rest children)

/-- The loop body of `orderRange_Bookmarks_`: widen the half-open range by
one record's order (an empty accumulator is replaced outright; the range
stays well-formed from `(0, 0)` on, so testing `end ≤ start` coincides
with the `size == 0` test of `isEmpty_Range`). -/
def orderRangeStep (ord : Int × Int) (bm : Bookmark) : Int × Int :=
  if ord.2 ≤ ord.1 then (bm.order, bm.order + 1)
  else (min ord.1 bm.order, max ord.2 (bm.order + 1))

/-- The embedding of `orderRange_Bookmarks_`: fold the half-open range of
order values, starting from the empty range `(0, 0)`. -/
def orderRange_Bookmarks (s : List Bookmark) : Int × Int :=
  s.foldl orderRangeStep (0, 0)

/-- The embedding of `add_Bookmarks`: canonicalize the URL, stamp the
(caller-supplied) current time, place the order at the range's start minus
one or at its end according to the `addBookmarksToBottom` preference,
allocate the next id and append the record; return the new id. -/
def add_Bookmarks (d : Bookmarks) (url title tags : List Char) (icon : Nat)
    (addToBottom : Bool) (nowSec : Int) (nowNsec : Nat) : Nat × Bookmarks :=
  let ord := orderRange_Bookmarks d.bookmarks
  let newId := d.idEnum + 1
  let bm : Bookmark :=
    { id := newId, url := canonicalUrl url, title := title, tags := tags,
      icon := icon, whenSec := nowSec, whenNsec := nowNsec, parentId := 0,
      order := if addToBottom then ord.2 else ord.1 - 1 }
  (newId, { d with idEnum := newId, bookmarks := d.bookmarks ++ [bm] })

/-- The loop body of `reorder_Bookmarks` on one record. -/
def reorderFn (i : Nat) (newOrder : Int) (bm : Bookmark) : Bookmark :=
  if bm.id = i then { bm with order := newOrder }
  else if newOrder ≤ bm.order then { bm with order := bm.order + 1 }
  else bm

/-- The embedding of `reorder_Bookmarks`: the target record keyed `i` gets
order `newOrder`; every other record whose order is `≥ newOrder` is shifted
up by one. -/
def reorder_Bookmarks (s : List Bookmark) (i : Nat) (newOrder : Int) : List Bookmark :=
  s.map (reorderFn i newOrder)

/-- The embedding of `findUrl_Bookmarks`: canonicalize the query and scan
for a case-insensitive exact URL match; 0 when absent (the C scan walks an
unspecified hash order; the embedding takes the first match in list
order). -/
def findUrl_Bookmarks (s : List Bookmark) (url : List Char) : Nat :=
  let cu := canonicalUrl url
  match s.find? (fun bm => eqNoCase cu bm.url) with
  | some bm => bm.id
  | none => 0

/-- The `user-icon` tag (`userIcon_BookmarkTag`, modelled from the spec's
name for it). -/
def userIconTag : List Char := "user-icon".toList

/-- The `remote` tag (`remote_BookmarkTag`). -/
def remoteTag : List Char := "remote".toList

/-- The embedding of `siteIcon_Bookmarks`: for a non-empty query URL, scan
the store keeping the icon of the bookmark with the shortest URL among
those that have a nonzero icon, match the `\buser-icon\b` tag pattern and
share the query's root case-insensitively.  The accumulator's first
component is `matchingSize` (`none` embeds `iInvalidSize`); `siteIconStep`
is the loop body. -/
def siteIconCand (url : List Char) (bm : Bookmark) : Bool :=
  bm.icon ≠ 0 && hasTagL bm.tags userIconTag
    && eqNoCase (urlRootOf bm.url) (urlRootOf url)

def siteIconStep (url : List Char) (acc : Option Nat × Nat) (bm : Bookmark) :
    Option Nat × Nat :=
  if siteIconCand url bm then
    match acc.1 with
    | none => (some bm.url.length, bm.icon)
    | some m => if bm.url.length < m then (some bm.url.length, bm.icon) else acc
  else acc

def siteIcon_Bookmarks (s : List Bookmark) (url : List Char) : Nat :=
  if url = [] then 0
  else (s.foldl (siteIconStep url) ((none : Option Nat), 0)).2

/-! ## Persistence (the TOML-subset codec)

The writer `save_Bookmarks` and the loader callbacks
`handleTable_BookmarkLoader_` / `handleKeyValue_BookmarkLoader_` are in
the sampled sources; the text-level TOML scanner and the string
quote/unquote pair live in an external library and are modelled from the
spec: the scanner recognizes exactly `[<id>]` headers and `key = value`
lines with double-quoted strings or integers, and quoting round-trips
strings losslessly.  The file is therefore embedded as the stream of
parse events it produces. -/

/-- One TOML parse event. -/
inductive TomlEvent where
  | tableStart (tableId : Nat)
  | tableEnd (tableId : Nat)
  | kvStr (key : List Char) (value : List Char)
  | kvInt (key : List Char) (value : Int)
deriving Repr, DecidableEq

def urlKey : List Char := "url".toList
def titleKey : List Char := "title".toList
def tagsKey : List Char := "tags".toList
def iconKey : List Char := "icon".toList
def createdKey : List Char := "created".toList
def parentKey : List Char := "parent".toList
def orderKey : List Char := "order".toList
def recentfolderKey : List Char := "recentfolder".toList

/-- The integer printed by `printf "%.0f"` for the timestamp
`sec + nsec / 1e9`: the nearest whole second, ties going to the even
integer (the default floating-point rounding). -/
def createdWritten (sec : Int) (nsec : Nat) : Int :=
  if nsec < 500000000 then sec
  else if 500000000 < nsec then sec + 1
  else if sec % 2 = 0 then sec else sec + 1

/-- The block `save_Bookmarks` writes for one bookmark: the `[id]` header,
the five unconditional keys, then `parent` and `order` only when
nonzero. -/
def saveEntry (bm : Bookmark) : List TomlEvent :=
  [TomlEvent.tableStart bm.id,
   TomlEvent.kvStr urlKey bm.url,
   TomlEvent.kvStr titleKey bm.title,
   TomlEvent.kvStr tagsKey bm.tags,
   TomlEvent.kvInt iconKey bm.icon,
   TomlEvent.kvInt createdKey (createdWritten bm.whenSec bm.whenNsec)]
  ++ (if bm.parentId ≠ 0 then [TomlEvent.kvInt parentKey bm.parentId] else [])
  ++ (if bm.order ≠ 0 then [TomlEvent.kvInt orderKey bm.order] else [])
  ++ [TomlEvent.tableEnd bm.id]

/-- The embedding of `save_Bookmarks`: the `recentfolder` line, then one
block per bookmark whose tag string does not match `\bremote\b`. -/
def save_Bookmarks (d : Bookmarks) : List TomlEvent :=
  TomlEvent.kvInt recentfolderKey d.recentFolderId
    :: (d.bookmarks.filter (fun bm => !hasTagL bm.tags remoteTag)).flatMap saveEntry

/-- The state of `struct Impl_BookmarkLoader` plus the store it loads
into: `cur` is the id of the bookmark being populated (`d->bm`). -/
structure LoaderState where
  idEnum : Nat
  bookmarks : List Bookmark
  recentFolderId : Nat
  cur : Option Nat
deriving Repr, DecidableEq

/-- A freshly constructed bookmark about to be inserted under key `i`
(`new_Bookmark` + `insertId_Bookmarks_`). -/
def freshBookmark (i : Nat) : Bookmark :=
  { id := i, url := [], title := [], tags := [], icon := 0,
    whenSec := 0, whenNsec := 0, parentId := 0, order := 0 }

/-- The embedding of the loader callbacks
`handleTable_BookmarkLoader_` and `handleKeyValue_BookmarkLoader_`,
dispatched over one parse event. -/
def handleEvent (st : LoaderState) : TomlEvent → LoaderState
  | TomlEvent.tableStart i =>
      { st with idEnum := max st.idEnum i,
                bookmarks := insertHash st.bookmarks (freshBookmark i),
                cur := some i }
  | TomlEvent.tableEnd _ => { st with cur := none }
  | TomlEvent.kvStr k v =>
      match st.cur with
      | some i =>
          if k = urlKey then
            { st with bookmarks := updateById st.bookmarks i (fun b => { b with url := v }) }
          else if k = titleKey then
            { st with bookmarks := updateById st.bookmarks i (fun b => { b with title := v }) }
          else if k = tagsKey then
            { st with bookmarks := updateById st.bookmarks i (fun b => { b with tags := v }) }
          else st
      | none => st
  | TomlEvent.kvInt k v =>
      match st.cur with
      | some i =>
          if k = iconKey then
            { st with bookmarks := updateById st.bookmarks i (fun b => { b with icon := v.toNat }) }
          else if k = createdKey then
            { st with bookmarks := updateById st.bookmarks i (fun b => { b with whenSec := v, whenNsec := 0 }) }
          else if k = parentKey then
            { st with bookmarks := updateById st.bookmarks i (fun b => { b with parentId := v.toNat }) }
          else if k = orderKey then
            { st with bookmarks := updateById st.bookmarks i (fun b => { b with order := v }) }
          else st
      | none =>
          if k = recentfolderKey then { st with recentFolderId := v.toNat } else st

/-- The embedding of `load_Bookmarks` over a parse-event stream, starting
from a cleared store. -/
def load_Bookmarks (evs : List TomlEvent) : LoaderState :=
  evs.foldl handleEvent { idEnum := 0, bookmarks := [], recentFolderId := 0, cur := none }

/-- What a saved bookmark reads back as: every field survives except the
timestamp, which collapses to the whole second written by `%.0f`. -/
def loadedOf (bm : Bookmark) : Bookmark :=
  { bm with whenSec := createdWritten bm.whenSec bm.whenNsec, whenNsec := 0 }

/-! ## Remote sync (`requestFinished_Bookmarks`) -/

/-- The embedding of the link-line regexp
`^=>\s*([^\s]+)(\s+(.*))?` applied to an end-trimmed line: returns the URL
capture and the (possibly empty) label capture. -/
def parseLink (line : List Char) : Option (List Char × List Char) :=
  match trimEndL line with
  | '=' :: '>' :: rest =>
      let rest' := rest.dropWhile isSpaceC
      let u := rest'.takeWhile (fun c => !isSpaceC c)
      if u = [] then none
      else some (u, (rest'.drop u.length).dropWhile isSpaceC)
  | _ => none

/-- The per-line body of the parsing loop in `requestFinished_Bookmarks`:
resolve and canonicalize the link's URL; when no existing bookmark has
that URL, add a bookmark tagged `remote` with icon `0x2913`, titled by the
label or (when absent) the link's host, and parent it under the
originating source bookmark. -/
def processLine (addToBottom : Bool) (nowSec : Int) (nowNsec : Nat)
    (baseUrl : List Char) (srcId : Nat) (d : Bookmarks) (line : List Char) : Bookmarks :=
  match parseLink line with
  | none => d
  | some (u, label) =>
      let absUrl := canonicalUrl (absoluteUrl baseUrl u)
      if findUrl_Bookmarks d.bookmarks absUrl ≠ 0 then d
      else
        let title := if label = [] then urlHost u else label
        let r := add_Bookmarks d absUrl title remoteTag 0x2913 addToBottom nowSec nowNsec
        { r.2 with bookmarks := updateById r.2.bookmarks r.1 (fun b => { b with parentId := srcId }) }

/-- Split a response body at newlines, as `nextSplit_Rangecc` does. -/
def splitLines : List Char → List (List Char)
  | [] => [[]]
  | c :: cs =>
      match splitLines cs with
      | [] => [[c]]
      | l :: ls => if c = '\n' then [] :: l :: ls else (c :: l) :: ls

/-- The whole successful-fetch merge: process every line of the body. -/
def processBody (addToBottom : Bool) (nowSec : Int) (nowNsec : Nat)
    (baseUrl : List Char) (srcId : Nat) (d : Bookmarks) (body : List Char) : Bookmarks :=
  (splitLines body).foldl (processLine addToBottom nowSec nowNsec baseUrl srcId) d

/-- The store together with the outstanding remote requests (handles
embedded as numbers), the state `requestFinished_Bookmarks` acts on. -/
structure SyncBookmarks where
  store : Bookmarks
  remoteRequests : List Nat
deriving Repr, DecidableEq

/-- The embedding of `requestFinished_Bookmarks`: drop the finished
request from the outstanding list, merge the body on success, and report
whether `"bookmarks.changed"` was posted (exactly when no request remains
outstanding). -/
def requestFinished_Bookmarks (d : SyncBookmarks) (req : Nat) (success : Bool)
    (addToBottom : Bool) (nowSec : Int) (nowNsec : Nat)
    (baseUrl : List Char) (srcId : Nat) (body : List Char) : SyncBookmarks × Bool :=
  let rr := d.remoteRequests.erase req
  let store' := if success then
      processBody addToBottom nowSec nowNsec baseUrl srcId d.store body
    else d.store
  ({ store := store', remoteRequests := rr }, rr.isEmpty)

/-- Per-request fetch outcome: success flag, base URL, originating source
bookmark id, and response body. -/
structure FetchOutcome where
  success : Bool
  baseUrl : List Char
  srcId : Nat
  body : List Char

/-- Run a sequence of request completions, counting how many posted the
`"bookmarks.changed"` notification. -/
def drainNotifications (addToBottom : Bool) (nowSec : Int) (nowNsec : Nat)
    (outcome : Nat → FetchOutcome) : SyncBookmarks → List Nat → Nat
  | _, [] => 0
  | d, r :: rs =>
      let step := requestFinished_Bookmarks d r (outcome r).success addToBottom
        nowSec nowNsec (outcome r).baseUrl (outcome r).srcId (outcome r).body
      (if step.2 then 1 else 0) + drainNotifications addToBottom nowSec nowNsec outcome step.1 rs

/-! ## Concrete stores used by the witnesses and counterexamples -/

/-- The concrete store for the C1 witness: a folder (id 1), its child
(id 2) and a grandchild (id 3, parented under 2). -/
def c1Store : List Bookmark :=
  [⟨1, [], [], [], 0, 0, 0, 0, 0⟩, ⟨2, [], [], [], 0, 0, 0, 1, 0⟩,
   ⟨3, [], [], [], 0, 0, 0, 2, 0⟩]

/-- The concrete store for the C3 witness and counterexample: ids 1 and 2
are siblings of the target id 3 at the root. -/
def c3Store : List Bookmark :=
  [⟨1, [], [], [], 0, 0, 0, 0, 5⟩, ⟨2, [], [], [], 0, 0, 0, 0, 7⟩,
   ⟨3, [], [], [], 0, 0, 0, 0, 0⟩]

/-- The concrete store refuting C3 as stated: ids 1 and 2 both already
have order 5; reordering id 3 to order 10 leaves them sharing it. -/
def c3DupStore : List Bookmark :=
  [⟨1, [], [], [], 0, 0, 0, 0, 5⟩, ⟨2, [], [], [], 0, 0, 0, 0, 5⟩,
   ⟨3, [], [], [], 0, 0, 0, 0, 0⟩]

/-- The concrete store for the C4 witness and counterexample: one record
with order 5 (so the order range is `[5, 6)`). -/
def c4Store : Bookmarks :=
  ⟨1, [⟨1, [], [], [], 0, 0, 0, 0, 5⟩], 0⟩

/-- The two-bookmark store of the claim's scenario: both tagged
`user-icon` with nonzero icons on the same root. -/
def c7ScenarioStore : List Bookmark :=
  [⟨1, "https://a.example/".toList, [], "user-icon".toList, 0x41, 0, 0, 0, 0⟩,
   ⟨2, "https://a.example/x".toList, [], "user-icon".toList, 0x42, 0, 0, 0, 0⟩]

/-- The store refuting C7 as stated: the root bookmark (shortest matching
URL) is tagged `user-icon` but its icon is unset (0). -/
def c7ZeroStore : List Bookmark :=
  [⟨1, "https://a.example/".toList, [], "user-icon".toList, 0, 0, 0, 0, 0⟩,
   ⟨2, "https://a.example/x".toList, [], "user-icon".toList, 0x42, 0, 0, 0, 0⟩]

/-- The field update a recognized `key = value` event performs on the
bookmark being loaded (`none` for unrecognized events). -/
def kvFn : TomlEvent → Option (Bookmark → Bookmark)
  | TomlEvent.kvStr k v =>
      if k = urlKey then some (fun b => { b with url := v })
      else if k = titleKey then some (fun b => { b with title := v })
      else if k = tagsKey then some (fun b => { b with tags := v })
      else none
  | TomlEvent.kvInt k v =>
      if k = iconKey then some (fun b => { b with icon := v.toNat })
      else if k = createdKey then some (fun b => { b with whenSec := v, whenNsec := 0 })
      else if k = parentKey then some (fun b => { b with parentId := v.toNat })
      else if k = orderKey then some (fun b => { b with order := v })
      else none
  | _ => none

/-- The concrete store for the C2 witness: a plain bookmark with nonzero
parent and order, and a remote-tagged bookmark. -/
def c2Store : Bookmarks :=
  ⟨2, [⟨1, "gemini://x/".toList, "T".toList, "pin".toList, 0x2605, 100, 0, 0, -2⟩,
       ⟨2, "gemini://y/".toList, "R".toList, "remote".toList, 3, 5, 0, 1, 1⟩], 7⟩

/-- The store refuting C2 as stated: one non-remote bookmark whose
creation time has a fractional part (0.25 s). -/
def c2FracStore : Bookmarks :=
  ⟨1, [⟨1, "gemini://x/".toList, [], [], 1, 100, 250000000, 0, 0⟩], 0⟩

/-- The store of the C8 scenario: one existing bookmark whose URL one of
the two fetched link lines duplicates. -/
def c8Store : Bookmarks :=
  ⟨5, [⟨5, "gemini://host/a".toList, "A".toList, [], 0, 0, 0, 0, 0⟩], 0⟩

/-! # Helper lemmas -/

lemma dropAppendK (xs ys : List Char) (k : Nat) :
    (xs ++ ys).drop (xs.length + k) = ys.drop k := by
  induction xs with
  | nil => simp
  | cons a l ih =>
      have h : (a :: l).length + k = (l.length + k) + 1 := by
        simp [List.length_cons]; omega
      rw [h, List.cons_append, List.drop_succ_cons, ih]

lemma isPrefixL_refl (t : List Char) : isPrefixL t t = true := by
  induction t with
  | nil => rfl
  | cons c cs ih => simp [isPrefixL, ih]

lemma lastDrop : ∀ (t : List Char), t ≠ [] → ∃ c, c ∈ t ∧ t.drop (t.length - 1) = [c]
  | [], h => absurd rfl h
  | [c], _ => ⟨c, List.mem_singleton.mpr rfl, rfl⟩
  | c :: d :: t, _ => by
      obtain ⟨e, he, hd⟩ := lastDrop (d :: t) (by simp)
      refine ⟨e, List.mem_cons_of_mem c he, ?_⟩
      have h1 : (c :: d :: t).length - 1 = ((d :: t).length - 1) + 1 := by
        simp [List.length_cons]
      rw [h1, List.drop_succ_cons, hd]

lemma boundary_zero (s : List Char) : boundary s 0 = (false != wordAt s 0) := rfl

lemma boundary_succ (s : List Char) (j : Nat) :
    boundary s (j + 1) = (wordAt s j != wordAt s (j + 1)) := rfl

lemma hasTagL_of_index (s t : List Char) (i : Nat) (hi : i < s.length + 1)
    (h : (boundary s i && matchesAt s t i && boundary s (i + t.length)) = true) :
    hasTagL s t = true := by
  unfold hasTagL
  rw [List.any_eq_true]
  exact ⟨i, List.mem_range.mpr hi, h⟩

lemma wordAt_false_of_drop (s : List Char) (i : Nat) (h : s.drop i = []) :
    wordAt s i = false := by
  simp [wordAt, h]

lemma wordAt_of_drop_cons (s : List Char) (i : Nat) (c : Char) (cs : List Char)
    (h : s.drop i = c :: cs) : wordAt s i = isWordChar c := by
  simp [wordAt, h]

lemma hasTagL_addTagL (tags t : List Char) (ht : t ≠ [])
    (hw : ∀ c ∈ t, isWordChar c = true) :
    hasTagL (addTagL tags t) t = true := by
  obtain ⟨c0, t0, rfl⟩ : ∃ c0 t0, t = c0 :: t0 := by
    cases t with
    | nil => exact absurd rfl ht
    | cons a b => exact ⟨a, b, rfl⟩
  obtain ⟨e, he, hdl⟩ := lastDrop (c0 :: t0) ht
  have hsp : isWordChar ' ' = false := by decide
  have hc0 : isWordChar c0 = true := hw c0 (List.mem_cons_self c0 t0)
  have hew : isWordChar e = true := hw e he
  by_cases h0 : tags = []
  · subst h0
    have hs : addTagL [] (c0 :: t0) = c0 :: t0 := rfl
    rw [hs]
    apply hasTagL_of_index _ _ 0
    · omega
    · have hb0 : boundary (c0 :: t0) 0 = true := by
        rw [boundary_zero, wordAt_of_drop_cons (c0 :: t0) 0 c0 t0 rfl, hc0]
        rfl
      have hm : matchesAt (c0 :: t0) (c0 :: t0) 0 = true := by
        unfold matchesAt
        simp [isPrefixL_refl]
      have hlen : (0 : Nat) + (c0 :: t0).length = t0.length + 1 := by
        simp [List.length_cons]
      have hbe : boundary (c0 :: t0) (0 + (c0 :: t0).length) = true := by
        rw [hlen, boundary_succ]
        have hdrop : (c0 :: t0).drop t0.length = [e] := by
          have h5 : (c0 :: t0).length - 1 = t0.length := by simp
          rw [← h5, hdl]
        rw [wordAt_of_drop_cons (c0 :: t0) t0.length e [] hdrop, hew,
            wordAt_false_of_drop (c0 :: t0) (t0.length + 1) (by simp)]
        rfl
      rw [hb0, hm, hbe]
      rfl
  · have hs : addTagL tags (c0 :: t0) = tags ++ ' ' :: c0 :: t0 := by
      unfold addTagL
      rw [if_neg h0]
    rw [hs]
    apply hasTagL_of_index _ _ (tags.length + 1)
    · simp [List.length_append, List.length_cons]
    · have hd0 : (tags ++ ' ' :: c0 :: t0).drop tags.length = ' ' :: c0 :: t0 := by
        simp
      have hd1 : (tags ++ ' ' :: c0 :: t0).drop (tags.length + 1) = c0 :: t0 :=
        dropAppendK tags (' ' :: c0 :: t0) 1
      have hb1 : boundary (tags ++ ' ' :: c0 :: t0) (tags.length + 1) = true := by
        rw [boundary_succ,
            wordAt_of_drop_cons _ _ _ _ hd0,
            wordAt_of_drop_cons _ _ _ _ hd1, hsp, hc0]
        rfl
      have hm : matchesAt (tags ++ ' ' :: c0 :: t0) (c0 :: t0) (tags.length + 1) = true := by
        unfold matchesAt
        rw [hd1]
        exact isPrefixL_refl (c0 :: t0)
      have harith : tags.length + 1 + (c0 :: t0).length = (tags.length + 1 + t0.length) + 1 := by
        simp [List.length_cons]
        omega
      have hdj : (tags ++ ' ' :: c0 :: t0).drop (tags.length + 1 + t0.length) = [e] := by
        have h2 : tags.length + 1 + t0.length = tags.length + (1 + t0.length) := by omega
        rw [h2, dropAppendK tags (' ' :: c0 :: t0) (1 + t0.length)]
        have h3 : (' ' :: c0 :: t0).drop (1 + t0.length) = (c0 :: t0).drop t0.length := by
          have h4 : 1 + t0.length = t0.length + 1 := by omega
          rw [h4, List.drop_succ_cons]
        rw [h3]
        have h5 : (c0 :: t0).length - 1 = t0.length := by simp
        rw [← h5, hdl]
      have hde : (tags ++ ' ' :: c0 :: t0).drop ((tags.length + 1 + t0.length) + 1) = [] := by
        apply List.drop_eq_nil_of_le
        simp [List.length_append, List.length_cons]
        omega
      have hbe : boundary (tags ++ ' ' :: c0 :: t0) (tags.length + 1 + (c0 :: t0).length) = true := by
        rw [harith, boundary_succ,
            wordAt_of_drop_cons _ _ _ _ hdj,
            wordAt_false_of_drop _ _ hde, hew]
        rfl
      rw [hb1, hm, hbe]
      rfl

/-- C5: `hasTag` is a case-sensitive whole-word match, so `addTag t`
followed by `hasTag t` is true — amended: for tags made of word characters
(letters, digits, underscore; the regexp is built by literal substitution,
so a tag starting or ending in a non-word character defeats the `\b`
anchors) — and `hasTag "rss"` on the tag string `"rssfeed other"` is
false. -/
theorem hasTag_wholeWord_addTag (tags t : List Char) (ht : t ≠ [])
    (hw : ∀ c ∈ t, isWordChar c = true) :
    hasTagL (addTagL tags t) t = true ∧
    hasTagL "rssfeed other".toList "rss".toList = false :=
  ⟨hasTagL_addTagL tags t ht hw, by decide⟩

/-- Witness for C5 at the tag string `"a"` and tag `"rss"`. -/
theorem hasTag_wholeWord_addTag_witness :
    (("rss".toList ≠ []) ∧ (∀ c ∈ "rss".toList, isWordChar c = true)) ∧
    (hasTagL (addTagL "a".toList "rss".toList) "rss".toList = true ∧
     hasTagL "rssfeed other".toList "rss".toList = false) :=
  ⟨⟨by decide, by decide⟩,
   hasTag_wholeWord_addTag "a".toList "rss".toList (by decide) (by decide)⟩

/-- C5 as stated is false for an arbitrary tag: for the tag `"-x"` the
generated pattern `\b-x\b` cannot match right after the separating space,
so `addTag` followed by `hasTag` is false. -/
theorem hasTag_addTag_counterexample :
    hasTagL (addTagL "a".toList "-x".toList) "-x".toList = false := by decide

/-- C6: the code contradicts the claim — `removeTag` deletes the first
literal substring occurrence, so on the tag string `"rssfeed rss"`
removing `"rss"` mutilates `"rssfeed"` into `"feed"` and leaves the
whole-word `"rss"` in place: `hasTag "rss"` is still true afterwards. -/
theorem removeTag_substring_bug :
    removeTagL "rssfeed rss".toList "rss".toList = "feed rss".toList ∧
    hasTagL (removeTagL "rssfeed rss".toList "rss".toList) "rss".toList = true := by
  constructor
  · decide
  · decide

/-! ## C9: the batch notification -/

lemma erase_eq_nil_iff_singleton (rs : List Nat) (r : Nat) (h : r ∈ rs) :
    rs.erase r = [] ↔ rs = [r] := by
  constructor
  · intro he
    have hl := List.length_erase_of_mem h
    rw [he] at hl
    have hlen : rs.length = 1 := by
      have hpos : 0 < rs.length := List.length_pos.mpr (List.ne_nil_of_mem h)
      simp at hl
      omega
    obtain ⟨a, rfl⟩ := List.length_eq_one.mp hlen
    have hra : r = a := by simpa using h
    rw [hra]
  · intro h
    subst h
    simp

lemma requestFinished_remoteRequests (d : SyncBookmarks) (req : Nat) (success : Bool)
    (addToBottom : Bool) (nowSec : Int) (nowNsec : Nat)
    (baseUrl : List Char) (srcId : Nat) (body : List Char) :
    (requestFinished_Bookmarks d req success addToBottom nowSec nowNsec
      baseUrl srcId body).1.remoteRequests = d.remoteRequests.erase req := rfl

lemma requestFinished_notified (d : SyncBookmarks) (req : Nat) (success : Bool)
    (addToBottom : Bool) (nowSec : Int) (nowNsec : Nat)
    (baseUrl : List Char) (srcId : Nat) (body : List Char) :
    (requestFinished_Bookmarks d req success addToBottom nowSec nowNsec
      baseUrl srcId body).2 = (d.remoteRequests.erase req).isEmpty := rfl

lemma drain_count (addToBottom : Bool) (nowSec : Int) (nowNsec : Nat)
    (outcome : Nat → FetchOutcome) :
    ∀ (seq : List Nat) (d : SyncBookmarks), seq.Perm d.remoteRequests → seq ≠ [] →
      drainNotifications addToBottom nowSec nowNsec outcome d seq = 1 := by
  intro seq
  induction seq with
  | nil => exact fun d _ hne => absurd rfl hne
  | cons r rs ih =>
      intro d hp _
      have hrs : rs.Perm (d.remoteRequests.erase r) :=
        (List.cons_perm_iff_perm_erase.mp hp).2
      cases rs with
      | nil =>
          have he : d.remoteRequests.erase r = [] := (List.Perm.eq_nil hrs.symm)
          simp [drainNotifications, requestFinished_Bookmarks, he]
      | cons b l =>
          have hne2 : d.remoteRequests.erase r ≠ [] := by
            intro h0
            rw [h0] at hrs
            exact absurd (List.Perm.eq_nil hrs) (by simp)
          have hstep := ih (d := (requestFinished_Bookmarks d r (outcome r).success
              addToBottom nowSec nowNsec (outcome r).baseUrl (outcome r).srcId
              (outcome r).body).1)
            (by rw [requestFinished_remoteRequests]; exact hrs) (by simp)
          rw [drainNotifications, hstep]
          have hemp : (d.remoteRequests.erase r).isEmpty = false := by
            cases h : d.remoteRequests.erase r with
            | nil => exact absurd h hne2
            | cons x xs => rfl
          rw [requestFinished_notified, hemp]
          simp

/-- C9: a completion posts `"bookmarks.changed"` exactly when the fetch it
handles was the last one outstanding, so completions arriving while other
fetches remain never emit it, and over a full drain of the outstanding
batch it is emitted exactly once. -/
theorem requestFinished_notify_iff_last (d : SyncBookmarks) (req : Nat)
    (success : Bool) (addToBottom : Bool) (nowSec : Int) (nowNsec : Nat)
    (baseUrl : List Char) (srcId : Nat) (body : List Char)
    (hmem : req ∈ d.remoteRequests) :
    ((requestFinished_Bookmarks d req success addToBottom nowSec nowNsec
        baseUrl srcId body).2 = true ↔ d.remoteRequests = [req])
    ∧ ∀ (outcome : Nat → FetchOutcome) (seq : List Nat),
        seq.Perm d.remoteRequests → seq ≠ [] →
        drainNotifications addToBottom nowSec nowNsec outcome d seq = 1 := by
  constructor
  · rw [requestFinished_notified, List.isEmpty_iff]
    exact erase_eq_nil_iff_singleton d.remoteRequests req hmem
  · intro outcome seq hperm hne
    exact drain_count addToBottom nowSec nowNsec outcome seq d hperm hne

/-- Witness for C9: a batch of two outstanding fetches. -/
theorem requestFinished_notify_iff_last_witness :
    (1 ∈ ([1, 2] : List Nat)) ∧
    (((requestFinished_Bookmarks ⟨⟨0, [], 0⟩, [1, 2]⟩ 1 true true 0 0 [] 0 []).2 = true
        ↔ ([1, 2] : List Nat) = [1])
     ∧ ∀ (outcome : Nat → FetchOutcome) (seq : List Nat),
         seq.Perm [1, 2] → seq ≠ [] →
         drainNotifications true 0 0 outcome ⟨⟨0, [], 0⟩, [1, 2]⟩ seq = 1) :=
  ⟨by decide,
   requestFinished_notify_iff_last ⟨⟨0, [], 0⟩, [1, 2]⟩ 1 true true 0 0 [] 0 [] (by decide)⟩

/-! ## C10: siteIcon's zero cases -/

lemma siteIconStep_zero_icon (url : List Char) (acc : Option Nat × Nat)
    (bm : Bookmark) (h : bm.icon = 0) : siteIconStep url acc bm = acc := by
  simp [siteIconStep, siteIconCand, h]

lemma siteIconFold_filter_icon (url : List Char) :
    ∀ (s : List Bookmark) (acc : Option Nat × Nat),
      s.foldl (siteIconStep url) acc
        = (s.filter (fun bm => bm.icon ≠ 0)).foldl (siteIconStep url) acc := by
  intro s
  induction s with
  | nil => intro acc; rfl
  | cons b bs ih =>
      intro acc
      by_cases hb : b.icon = 0
      · rw [List.foldl_cons, siteIconStep_zero_icon url acc b hb]
        rw [ih acc]
        congr 1
        simp [List.filter_cons, hb]
      · rw [List.foldl_cons, ih (siteIconStep url acc b)]
        have : (b :: bs).filter (fun bm => bm.icon ≠ 0)
            = b :: bs.filter (fun bm => bm.icon ≠ 0) := by
          simp [List.filter_cons, hb]
        rw [this, List.foldl_cons]

/-- C10: `siteIcon` returns 0 for the empty query URL, and bookmarks whose
icon is 0 never participate in the selection: the result is unchanged when
they are filtered out of the store. -/
theorem siteIcon_empty_and_zero_icon (s : List Bookmark) (url : List Char) :
    siteIcon_Bookmarks s [] = 0 ∧
    siteIcon_Bookmarks s url = siteIcon_Bookmarks (s.filter (fun bm => bm.icon ≠ 0)) url := by
  constructor
  · rfl
  · unfold siteIcon_Bookmarks
    by_cases h : url = []
    · rw [if_pos h, if_pos h]
    · rw [if_neg h, if_neg h, siteIconFold_filter_icon]

/-! ## C1: cascading removal -/

lemma remove_Hash_fst (s : List Bookmark) (i : Nat) :
    (remove_Hash s i).1 = s.find? (fun b => b.id == i) := by
  induction s with
  | nil => rfl
  | cons b bs ih =>
      by_cases hb : b.id = i
      · simp [remove_Hash, hb, List.find?_cons, ih]
      · simp [remove_Hash, hb, List.find?_cons, ih]

lemma remove_Hash_snd_of_nodup (s : List Bookmark) (i : Nat)
    (h : (s.map Bookmark.id).Nodup) :
    (remove_Hash s i).2 = s.filter (fun b => !(b.id == i)) := by
  induction s with
  | nil => rfl
  | cons b bs ih =>
      rw [List.map_cons, List.nodup_cons] at h
      obtain ⟨hnotin, htail⟩ := h
      by_cases hb : b.id = i
      · have hall : ∀ x ∈ bs, (!(x.id == i)) = true := by
          intro x hx
          have hne : x.id ≠ i := by
            intro hxi
            exact hnotin (hb ▸ hxi ▸ List.mem_map_of_mem Bookmark.id hx)
          simp [hne]
        simp [remove_Hash, hb, List.filter_cons, List.filter_eq_self.mpr hall]
      · simp [remove_Hash, hb, List.filter_cons, ih htail]

lemma removeEach_filter : ∀ (cs s : List Bookmark),
    (s.map Bookmark.id).Nodup →
    removeEach s cs = s.filter (fun b => cs.all (fun c => !(b.id == c.id))) := by
  intro cs
  induction cs with
  | nil =>
      intro s _
      simp [removeEach]
  | cons c cs' ih =>
      intro s h
      have h1 : removeEach s (c :: cs') = removeEach ((remove_Hash s c.id).2) cs' := rfl
      rw [h1, remove_Hash_snd_of_nodup s c.id h]
      have hnd2 : ((s.filter (fun b => !(b.id == c.id))).map Bookmark.id).Nodup :=
        ((List.filter_sublist s).map Bookmark.id).nodup h
      rw [ih _ hnd2, List.filter_filter]
      apply List.filter_congr
      intro x _
      simp [List.all_cons, Bool.and_comm]

/-- C1: `remove(id)` detaches the record keyed `id` together with exactly
the bookmarks whose `parentId` equals `id` (one level; grandchildren whose
parent is a removed child stay), returns whether the id was present, leaves
the store unchanged when it was absent, and a second removal of the same id
returns false. -/
theorem remove_Bookmarks_cascade (s : List Bookmark) (i : Nat)
    (hnd : (s.map Bookmark.id).Nodup) :
    (remove_Bookmarks s i).1 = s.any (fun b => b.id == i)
    ∧ (s.any (fun b => b.id == i) = true →
        (remove_Bookmarks s i).2
          = s.filter (fun b => !(b.id == i) && !(b.parentId == i)))
    ∧ (s.any (fun b => b.id == i) = false → (remove_Bookmarks s i).2 = s)
    ∧ (remove_Bookmarks (remove_Bookmarks s i).2 i).1 = false := by
  have hsnd := remove_Hash_snd_of_nodup s i hnd
  have hfst := remove_Hash_fst s i
  rcases hhash : remove_Hash s i with ⟨fst, rest⟩
  rw [hhash] at hsnd hfst
  simp only at hsnd hfst
  cases fst with
  | none =>
      have hrb : remove_Bookmarks s i = (false, s) := by
        unfold remove_Bookmarks
        rw [hhash]
      have hnone : ∀ b ∈ s, b.id ≠ i := by
        intro b hb hbi
        have h3 := List.find?_eq_none.mp hfst.symm b hb
        simp [hbi] at h3
      have hany : s.any (fun b => b.id == i) = false := by
        rw [List.any_eq_false]
        intro x hx
        simp [hnone x hx]
      have h2 : (remove_Bookmarks s i).2 = s := by rw [hrb]
      refine ⟨by rw [hrb, hany], ?_, fun _ => h2, ?_⟩
      · intro hcontra
        rw [hany] at hcontra
        cases hcontra
      · rw [h2]
        unfold remove_Bookmarks
        rw [hhash]
  | some bm =>
      have hbm : bm.id = i := by
        have h4 := List.find?_some hfst.symm
        simpa using h4
      have hmem : bm ∈ s := List.mem_of_find?_eq_some hfst.symm
      have hany : s.any (fun b => b.id == i) = true :=
        List.any_eq_true.mpr ⟨bm, hmem, by simp [hbm]⟩
      have hrb : remove_Bookmarks s i
          = (true, removeEach rest (rest.filter (fun b => hasParent_Bookmark b bm.id))) := by
        unfold remove_Bookmarks
        rw [hhash]
      have hrestnd : (rest.map Bookmark.id).Nodup := by
        rw [hsnd]
        exact ((List.filter_sublist s).map Bookmark.id).nodup hnd
      have hinj := List.inj_on_of_nodup_map hrestnd
      have hkey : removeEach rest (rest.filter (fun b => hasParent_Bookmark b bm.id))
          = rest.filter (fun b => !(b.parentId == i)) := by
        rw [removeEach_filter _ rest hrestnd]
        apply List.filter_congr
        intro x hx
        by_cases hxp : x.parentId = i
        · have hxc : x ∈ rest.filter (fun b => hasParent_Bookmark b bm.id) := by
            rw [List.mem_filter]
            exact ⟨hx, by simp [hasParent_Bookmark, hxp, hbm]⟩
          have h5 : (rest.filter (fun b => hasParent_Bookmark b bm.id)).all
              (fun c => !(x.id == c.id)) = false :=
            List.all_eq_false.mpr ⟨x, hxc, by simp⟩
          rw [h5]
          simp [hxp]
        · have h6 : (rest.filter (fun b => hasParent_Bookmark b bm.id)).all
              (fun c => !(x.id == c.id)) = true := by
            rw [List.all_eq_true]
            intro c hc
            rw [List.mem_filter] at hc
            obtain ⟨hcrest, hcpar⟩ := hc
            have hcpar2 : c.parentId = i := by
              simpa [hasParent_Bookmark, hbm] using hcpar
            have hne : x.id ≠ c.id := by
              intro hid
              have hxc : x = c := hinj hx hcrest hid
              exact hxp (hxc ▸ hcpar2)
            simp [hne]
          rw [h6]
          simp [hxp]
      have h2 : (remove_Bookmarks s i).2 = rest.filter (fun b => !(b.parentId == i)) := by
        rw [hrb, hkey]
      refine ⟨by rw [hrb, hany], fun _ => ?_, ?_, ?_⟩
      · rw [h2, hsnd, List.filter_filter]
        apply List.filter_congr
        intro x _
        simp [Bool.and_comm]
      · intro hcontra
        rw [hany] at hcontra
        cases hcontra
      · rw [h2]
        unfold remove_Bookmarks
        have hfind2 : remove_Hash (rest.filter (fun b => !(b.parentId == i))) i
            = (none, (remove_Hash (rest.filter (fun b => !(b.parentId == i))) i).2) := by
          have h7 : (remove_Hash (rest.filter (fun b => !(b.parentId == i))) i).1 = none := by
            rw [remove_Hash_fst]
            rw [List.find?_eq_none]
            intro x hx
            rw [List.mem_filter] at hx
            have hx2 := hx.1
            rw [hsnd, List.mem_filter] at hx2
            simpa using hx2.2
          exact Prod.ext h7 rfl
        rw [hfind2]

/-- Witness for C1 at `c1Store`, removing id 1. -/
theorem remove_Bookmarks_cascade_witness :
    ((c1Store.map Bookmark.id).Nodup)
    ∧ ((remove_Bookmarks c1Store 1).1 = c1Store.any (fun b => b.id == 1)
       ∧ (c1Store.any (fun b => b.id == 1) = true →
           (remove_Bookmarks c1Store 1).2
             = c1Store.filter (fun b => !(b.id == 1) && !(b.parentId == 1)))
       ∧ (c1Store.any (fun b => b.id == 1) = false → (remove_Bookmarks c1Store 1).2 = c1Store)
       ∧ (remove_Bookmarks (remove_Bookmarks c1Store 1).2 1).1 = false) :=
  ⟨by decide, remove_Bookmarks_cascade c1Store 1 (by decide)⟩

/-! ## C3: reordering -/

lemma reorderFn_id (i : Nat) (n : Int) (bm : Bookmark) :
    (reorderFn i n bm).id = bm.id := by
  unfold reorderFn
  split_ifs <;> rfl

lemma reorderFn_parentId (i : Nat) (n : Int) (bm : Bookmark) :
    (reorderFn i n bm).parentId = bm.parentId := by
  unfold reorderFn
  split_ifs <;> rfl

lemma reorderFn_order_target (i : Nat) (n : Int) (bm : Bookmark) (h : bm.id = i) :
    (reorderFn i n bm).order = n := by
  unfold reorderFn
  rw [if_pos h]

lemma reorderFn_order_other (i : Nat) (n : Int) (bm : Bookmark) (h : bm.id ≠ i) :
    (reorderFn i n bm).order = if n ≤ bm.order then bm.order + 1 else bm.order := by
  unfold reorderFn
  rw [if_neg h]
  split_ifs <;> rfl

lemma find?_map_reorderFn (s : List Bookmark) (i : Nat) (n : Int) (j : Nat) :
    (s.map (reorderFn i n)).find? (fun b => b.id == j)
      = (s.find? (fun b => b.id == j)).map (reorderFn i n) := by
  induction s with
  | nil => rfl
  | cons b bs ih =>
      rw [List.map_cons, List.find?_cons, List.find?_cons, reorderFn_id]
      cases hbeq : b.id == j
      · simpa using ih
      · rfl

lemma find?_eq_of_mem_nodup (s : List Bookmark) (b : Bookmark)
    (hnd : (s.map Bookmark.id).Nodup) (hb : b ∈ s) :
    s.find? (fun x => x.id == b.id) = some b := by
  induction s with
  | nil => cases hb
  | cons c cs ih =>
      rw [List.map_cons, List.nodup_cons] at hnd
      obtain ⟨hnotin, htail⟩ := hnd
      rw [List.find?_cons]
      rcases List.mem_cons.mp hb with hbc | hbcs
      · subst hbc
        simp
      · have hne : c.id ≠ b.id := by
          intro hid
          exact hnotin (hid ▸ List.mem_map_of_mem Bookmark.id hbcs)
        have hcb : (c.id == b.id) = false := by simp [hne]
        rw [hcb]
        exact ih htail hbcs

/-- C3 (amended): `reorder(id, n)` sets the target's order to `n` and
shifts every other record whose order was `≥ n` up by one, leaving the
rest unchanged; no non-target sibling ends up with order `n`, and the
number of other siblings ordered before the target equals the number that
had order `< n` before the call, so listing siblings by order puts the
target at the insertion position implied by `n`; when the sibling orders
were pairwise distinct before the call they remain pairwise distinct. -/
theorem reorder_Bookmarks_spec (s : List Bookmark) (i : Nat) (n : Int)
    (hnd : (s.map Bookmark.id).Nodup) (t : Bookmark) (hts : t ∈ s) (hti : t.id = i) :
    (reorder_Bookmarks s i n).find? (fun b => b.id == i) = some { t with order := n }
    ∧ (∀ b ∈ s, b.id ≠ i →
        (reorder_Bookmarks s i n).find? (fun x => x.id == b.id)
          = some (if n ≤ b.order then { b with order := b.order + 1 } else b))
    ∧ (∀ b ∈ reorder_Bookmarks s i n, b.id ≠ i → b.order ≠ n)
    ∧ ((reorder_Bookmarks s i n).filter
          (fun b => b.parentId == t.parentId && !(b.id == i))).countP (fun b => b.order < n)
        = (s.filter (fun b => b.parentId == t.parentId && !(b.id == i))).countP
            (fun b => b.order < n)
    ∧ (((s.filter (fun b => b.parentId == t.parentId)).map Bookmark.order).Pairwise (· ≠ ·) →
        (((reorder_Bookmarks s i n).filter
            (fun b => b.parentId == t.parentId)).map Bookmark.order).Pairwise (· ≠ ·)) := by
  have hinj := List.inj_on_of_nodup_map hnd
  refine ⟨?_, ?_, ?_, ?_, ?_⟩
  · unfold reorder_Bookmarks
    rw [find?_map_reorderFn]
    have hf : s.find? (fun b => b.id == i) = some t := by
      have h1 := find?_eq_of_mem_nodup s t hnd hts
      rw [hti] at h1
      exact h1
    rw [hf]
    have hft : reorderFn i n t = { t with order := n } := by
      unfold reorderFn
      rw [if_pos hti]
    rw [show Option.map (reorderFn i n) (some t) = some (reorderFn i n t) from rfl, hft]
  · intro b hb hbne
    unfold reorder_Bookmarks
    rw [find?_map_reorderFn, find?_eq_of_mem_nodup s b hnd hb]
    have hfb : reorderFn i n b = if n ≤ b.order then { b with order := b.order + 1 } else b := by
      unfold reorderFn
      rw [if_neg hbne]
    rw [show Option.map (reorderFn i n) (some b) = some (reorderFn i n b) from rfl, hfb]
  · intro b hb hbne
    unfold reorder_Bookmarks at hb
    obtain ⟨x, hx, rfl⟩ := List.mem_map.mp hb
    rw [reorderFn_id] at hbne
    rw [reorderFn_order_other i n x hbne]
    split_ifs with ho <;> omega
  · unfold reorder_Bookmarks
    have hpred : ((fun b : Bookmark => b.parentId == t.parentId && !(b.id == i))
        ∘ reorderFn i n) = (fun b : Bookmark => b.parentId == t.parentId && !(b.id == i)) := by
      funext b
      simp [Function.comp, reorderFn_id, reorderFn_parentId]
    rw [List.filter_map, hpred, List.countP_map]
    apply List.countP_congr
    intro x hx
    rw [List.mem_filter] at hx
    have hxi : x.id ≠ i := by
      have h2 := hx.2
      simp at h2
      exact h2.2
    simp only [Function.comp]
    rw [reorderFn_order_other i n x hxi]
    split_ifs with ho
    · constructor
      · intro h3
        simp at h3 ⊢
        omega
      · intro h3
        simp at h3 ⊢
        omega
    · constructor
      · intro h3
        simpa using h3
      · intro h3
        simpa using h3
  · intro hpw
    unfold reorder_Bookmarks
    have hpred : ((fun b : Bookmark => b.parentId == t.parentId) ∘ reorderFn i n)
        = (fun b : Bookmark => b.parentId == t.parentId) := by
      funext b
      simp [Function.comp, reorderFn_parentId]
    rw [List.filter_map, hpred, List.map_map, List.pairwise_map]
    rw [List.pairwise_map] at hpw
    apply List.Pairwise.imp_of_mem _ hpw
    intro a b ha hb hne
    have has : a ∈ s := List.mem_of_mem_filter ha
    have hbs : b ∈ s := List.mem_of_mem_filter hb
    simp only [Function.comp]
    by_cases hai : a.id = i <;> by_cases hbi : b.id = i
    · exact absurd (congrArg Bookmark.order (hinj has hbs (hai.trans hbi.symm))) hne
    · rw [reorderFn_order_target i n a hai, reorderFn_order_other i n b hbi]
      split_ifs with ho <;> omega
    · rw [reorderFn_order_other i n a hai, reorderFn_order_target i n b hbi]
      split_ifs with ho <;> omega
    · rw [reorderFn_order_other i n a hai, reorderFn_order_other i n b hbi]
      split_ifs with h1 h2 <;> omega

/-- Witness for C3 at `c3Store`, reordering id 3 to order 6. -/
theorem reorder_Bookmarks_spec_witness :
    ((c3Store.map Bookmark.id).Nodup
     ∧ (⟨3, [], [], [], 0, 0, 0, 0, 0⟩ : Bookmark) ∈ c3Store
     ∧ (⟨3, [], [], [], 0, 0, 0, 0, 0⟩ : Bookmark).id = 3)
    ∧ ((reorder_Bookmarks c3Store 3 6).find? (fun b => b.id == 3)
        = some { (⟨3, [], [], [], 0, 0, 0, 0, 0⟩ : Bookmark) with order := 6 }
       ∧ (∀ b ∈ c3Store, b.id ≠ 3 →
           (reorder_Bookmarks c3Store 3 6).find? (fun x => x.id == b.id)
             = some (if 6 ≤ b.order then { b with order := b.order + 1 } else b))
       ∧ (∀ b ∈ reorder_Bookmarks c3Store 3 6, b.id ≠ 3 → b.order ≠ 6)
       ∧ ((reorder_Bookmarks c3Store 3 6).filter
             (fun b => b.parentId == (0 : Nat) && !(b.id == 3))).countP (fun b => b.order < 6)
           = (c3Store.filter (fun b => b.parentId == (0 : Nat) && !(b.id == 3))).countP
               (fun b => b.order < 6)
       ∧ (((c3Store.filter (fun b => b.parentId == (0 : Nat))).map Bookmark.order).Pairwise (· ≠ ·) →
           (((reorder_Bookmarks c3Store 3 6).filter
               (fun b => b.parentId == (0 : Nat))).map Bookmark.order).Pairwise (· ≠ ·))) :=
  ⟨⟨by decide, by decide, by decide⟩,
   reorder_Bookmarks_spec c3Store 3 6 (by decide) ⟨3, [], [], [], 0, 0, 0, 0, 0⟩
     (by decide) (by decide)⟩

/-- C3 as stated is false: after `reorder(3, 10)` on a store whose sibling
records 1 and 2 both carry order 5 (below the new order), the two still
share the exact same order value. -/
theorem reorder_shared_order_counterexample :
    ∃ a ∈ reorder_Bookmarks c3DupStore 3 10, ∃ b ∈ reorder_Bookmarks c3DupStore 3 10,
      a.id ≠ b.id ∧ a.parentId = b.parentId ∧ a.order = b.order := by decide

/-! ## C4: the order assigned by add -/

lemma orderRangeFold_spec :
    ∀ (s : List Bookmark) (p : Int × Int), p.1 < p.2 →
      (s.foldl orderRangeStep p).1 ≤ p.1
      ∧ p.2 ≤ (s.foldl orderRangeStep p).2
      ∧ (∀ b ∈ s, (s.foldl orderRangeStep p).1 ≤ b.order
          ∧ b.order < (s.foldl orderRangeStep p).2)
      ∧ ((s.foldl orderRangeStep p).1 = p.1 ∨ ∃ b ∈ s, (s.foldl orderRangeStep p).1 = b.order)
      ∧ ((s.foldl orderRangeStep p).2 = p.2 ∨ ∃ b ∈ s, (s.foldl orderRangeStep p).2 = b.order + 1)
      ∧ (s.foldl orderRangeStep p).1 < (s.foldl orderRangeStep p).2 := by
  intro s
  induction s with
  | nil =>
      intro p hp
      refine ⟨le_refl _, le_refl _, ?_, Or.inl rfl, Or.inl rfl, hp⟩
      intro b hb
      cases hb
  | cons b bs ih =>
      intro p hp
      have hstep : orderRangeStep p b = (min p.1 b.order, max p.2 (b.order + 1)) := by
        unfold orderRangeStep
        rw [if_neg (by omega)]
      have hp2 : (min p.1 b.order, max p.2 (b.order + 1)).1
          < (min p.1 b.order, max p.2 (b.order + 1)).2 :=
        lt_of_le_of_lt (min_le_left _ _) (lt_of_lt_of_le hp (le_max_left _ _))
      obtain ⟨q1, q2, qmem, qatt1, qatt2, qlt⟩ := ih (min p.1 b.order, max p.2 (b.order + 1)) hp2
      have hfold : (b :: bs).foldl orderRangeStep p
          = bs.foldl orderRangeStep (min p.1 b.order, max p.2 (b.order + 1)) := by
        rw [List.foldl_cons, hstep]
      rw [hfold]
      simp only at q1 q2
      refine ⟨le_trans q1 (min_le_left _ _), le_trans (le_max_left _ _) q2, ?_, ?_, ?_, qlt⟩
      · intro x hx
        rcases List.mem_cons.mp hx with hxb | hxbs
        · subst hxb
          refine ⟨le_trans q1 (min_le_right _ _), ?_⟩
          have h3 : x.order < x.order + 1 := by omega
          exact lt_of_lt_of_le h3 (le_trans (le_max_right _ _) q2)
        · exact qmem x hxbs
      · rcases qatt1 with h5 | ⟨c, hc, hcq⟩
        · rcases le_total p.1 b.order with h6 | h6
          · left
            rw [h5]
            exact min_eq_left h6
          · right
            refine ⟨b, List.mem_cons_self b bs, ?_⟩
            rw [h5]
            exact min_eq_right h6
        · exact Or.inr ⟨c, List.mem_cons_of_mem b hc, hcq⟩
      · rcases qatt2 with h5 | ⟨c, hc, hcq⟩
        · rcases le_total (b.order + 1) p.2 with h6 | h6
          · left
            rw [h5]
            exact max_eq_left h6
          · right
            refine ⟨b, List.mem_cons_self b bs, ?_⟩
            rw [h5]
            exact max_eq_right h6
        · exact Or.inr ⟨c, List.mem_cons_of_mem b hc, hcq⟩

lemma orderRange_Bookmarks_spec (s : List Bookmark) (hne : s ≠ []) :
    (∀ b ∈ s, (orderRange_Bookmarks s).1 ≤ b.order
        ∧ b.order < (orderRange_Bookmarks s).2)
    ∧ (∃ b ∈ s, (orderRange_Bookmarks s).1 = b.order)
    ∧ (∃ b ∈ s, (orderRange_Bookmarks s).2 = b.order + 1) := by
  obtain ⟨b, bs, rfl⟩ : ∃ b bs, s = b :: bs := by
    cases s with
    | nil => exact absurd rfl hne
    | cons a l => exact ⟨a, l, rfl⟩
  have hfirst : orderRange_Bookmarks (b :: bs)
      = bs.foldl orderRangeStep (b.order, b.order + 1) := by
    unfold orderRange_Bookmarks
    rw [List.foldl_cons]
    rfl
  have hp : (b.order, b.order + 1).1 < (b.order, b.order + 1).2 := by
    simp only
    omega
  obtain ⟨q1, q2, qmem, qatt1, qatt2, _⟩ := orderRangeFold_spec bs (b.order, b.order + 1) hp
  simp only at q1 q2
  rw [hfirst]
  refine ⟨?_, ?_, ?_⟩
  · intro x hx
    rcases List.mem_cons.mp hx with hxb | hxbs
    · subst hxb
      omega
    · exact qmem x hxbs
  · rcases qatt1 with h5 | ⟨c, hc, hcq⟩
    · exact ⟨b, List.mem_cons_self b bs, h5⟩
    · exact ⟨c, List.mem_cons_of_mem b hc, hcq⟩
  · rcases qatt2 with h5 | ⟨c, hc, hcq⟩
    · exact ⟨b, List.mem_cons_self b bs, h5⟩
    · exact ⟨c, List.mem_cons_of_mem b hc, hcq⟩

/-- C4 (amended): on a non-empty store, `add` appends a record carrying
the next id `idEnum + 1` (which it returns); with the append preference
the new order is the current maximum order **plus one** (the exclusive
range end `ord.end`, not the maximum itself as the claim stated), and with
the prepend preference it is the current minimum order minus one. -/
theorem add_Bookmarks_order (d : Bookmarks) (url title tags : List Char) (icon : Nat)
    (addToBottom : Bool) (nowSec : Int) (nowNsec : Nat) (hne : d.bookmarks ≠ []) :
    (add_Bookmarks d url title tags icon addToBottom nowSec nowNsec).1 = d.idEnum + 1
    ∧ (add_Bookmarks d url title tags icon addToBottom nowSec nowNsec).2.idEnum = d.idEnum + 1
    ∧ ∃ bm, (add_Bookmarks d url title tags icon addToBottom nowSec nowNsec).2.bookmarks
          = d.bookmarks ++ [bm]
        ∧ bm.id = d.idEnum + 1
        ∧ (addToBottom = true →
            (∀ x ∈ d.bookmarks, x.order < bm.order)
            ∧ ∃ x ∈ d.bookmarks, bm.order = x.order + 1)
        ∧ (addToBottom = false →
            (∀ x ∈ d.bookmarks, bm.order < x.order)
            ∧ ∃ x ∈ d.bookmarks, bm.order = x.order - 1) := by
  obtain ⟨hmem, ⟨bmin, hbmin, hbminq⟩, ⟨bmax, hbmax, hbmaxq⟩⟩ :=
    orderRange_Bookmarks_spec d.bookmarks hne
  refine ⟨rfl, rfl, ⟨_, rfl, rfl, ?_, ?_⟩⟩
  · intro hbot
    subst hbot
    simp only [if_pos]
    exact ⟨fun x hx => (hmem x hx).2,
           ⟨bmax, hbmax, by omega⟩⟩
  · intro hbot
    subst hbot
    simp only [if_neg]
    constructor
    · intro x hx
      have h1 := (hmem x hx).1
      simp only [Bool.false_eq_true, if_false]
      omega
    · exact ⟨bmin, hbmin, by simp only [Bool.false_eq_true, if_false]; omega⟩

/-- Witness for C4 at `c4Store`. -/
theorem add_Bookmarks_order_witness :
    (c4Store.bookmarks ≠ [])
    ∧ ((add_Bookmarks c4Store [] [] [] 0 true 0 0).1 = c4Store.idEnum + 1
       ∧ (add_Bookmarks c4Store [] [] [] 0 true 0 0).2.idEnum = c4Store.idEnum + 1
       ∧ ∃ bm, (add_Bookmarks c4Store [] [] [] 0 true 0 0).2.bookmarks
             = c4Store.bookmarks ++ [bm]
           ∧ bm.id = c4Store.idEnum + 1
           ∧ (true = true →
               (∀ x ∈ c4Store.bookmarks, x.order < bm.order)
               ∧ ∃ x ∈ c4Store.bookmarks, bm.order = x.order + 1)
           ∧ (true = false →
               (∀ x ∈ c4Store.bookmarks, bm.order < x.order)
               ∧ ∃ x ∈ c4Store.bookmarks, bm.order = x.order - 1)) :=
  ⟨by decide, add_Bookmarks_order c4Store [] [] [] 0 true 0 0 (by decide)⟩

/-- C4 as stated is false for appending: on `c4Store` (maximum order 5)
the appended bookmark receives order 6 (`ord.end`), not the current
maximum 5. -/
theorem add_append_counterexample :
    ((add_Bookmarks c4Store [] [] [] 0 true 0 0).2.bookmarks.map Bookmark.order = [5, 6])
    ∧ (∀ x ∈ c4Store.bookmarks, x.order ≤ 5) ∧ (6 : Int) ≠ 5 := by decide

/-! ## C7: siteIcon picks the shortest matching URL -/

lemma siteIconStep_not_cand (url : List Char) (acc : Option Nat × Nat)
    (bm : Bookmark) (h : siteIconCand url bm = false) :
    siteIconStep url acc bm = acc := by
  simp [siteIconStep, h]

lemma siteIconFold_some (url : List Char) :
    ∀ (s : List Bookmark) (m ic : Nat),
      ∃ r : Nat × Nat, s.foldl (siteIconStep url) (some m, ic) = (some r.1, r.2)
        ∧ ((r.1 = m ∧ r.2 = ic)
            ∨ ∃ bm ∈ s.filter (siteIconCand url), r.1 = bm.url.length ∧ r.2 = bm.icon)
        ∧ r.1 ≤ m
        ∧ (∀ b ∈ s.filter (siteIconCand url), r.1 ≤ b.url.length) := by
  intro s
  induction s with
  | nil =>
      intro m ic
      refine ⟨(m, ic), rfl, Or.inl ⟨rfl, rfl⟩, le_refl _, ?_⟩
      intro b hb
      cases hb
  | cons b bs ih =>
      intro m ic
      by_cases hcb : siteIconCand url b = true
      · have hfilter : (b :: bs).filter (siteIconCand url)
            = b :: bs.filter (siteIconCand url) := by
          simp [List.filter_cons, hcb]
        by_cases hlt : b.url.length < m
        · have hstep : siteIconStep url (some m, ic) b = (some b.url.length, b.icon) := by
            simp [siteIconStep, hcb, hlt]
          obtain ⟨r, hr, hd, hle, hbound⟩ := ih b.url.length b.icon
          refine ⟨r, by rw [List.foldl_cons, hstep, hr], ?_, by omega, ?_⟩
          · rcases hd with ⟨h1, h2⟩ | ⟨bm, hbm, h1, h2⟩
            · exact Or.inr ⟨b, by rw [hfilter]; exact List.mem_cons_self _ _, h1, h2⟩
            · exact Or.inr ⟨bm, by rw [hfilter]; exact List.mem_cons_of_mem b hbm, h1, h2⟩
          · intro x hx
            rw [hfilter] at hx
            rcases List.mem_cons.mp hx with hxb | hxbs
            · subst hxb
              exact hle
            · exact hbound x hxbs
        · have hstep : siteIconStep url (some m, ic) b = (some m, ic) := by
            simp [siteIconStep, hcb, hlt]
          obtain ⟨r, hr, hd, hle, hbound⟩ := ih m ic
          refine ⟨r, by rw [List.foldl_cons, hstep, hr], ?_, hle, ?_⟩
          · rcases hd with h1 | ⟨bm, hbm, h1, h2⟩
            · exact Or.inl h1
            · exact Or.inr ⟨bm, by rw [hfilter]; exact List.mem_cons_of_mem b hbm, h1, h2⟩
          · intro x hx
            rw [hfilter] at hx
            rcases List.mem_cons.mp hx with hxb | hxbs
            · subst hxb
              omega
            · exact hbound x hxbs
      · have hcb2 : siteIconCand url b = false := by
          cases h : siteIconCand url b
          · rfl
          · exact absurd h hcb
        have hfilter : (b :: bs).filter (siteIconCand url) = bs.filter (siteIconCand url) := by
          simp [List.filter_cons, hcb2]
        obtain ⟨r, hr, hd, hle, hbound⟩ := ih m ic
        refine ⟨r, by rw [List.foldl_cons, siteIconStep_not_cand url _ b hcb2, hr], ?_, hle, ?_⟩
        · rcases hd with h1 | ⟨bm, hbm, h1, h2⟩
          · exact Or.inl h1
          · exact Or.inr ⟨bm, by rw [hfilter]; exact hbm, h1, h2⟩
        · intro x hx
          rw [hfilter] at hx
          exact hbound x hx

lemma siteIconFold_start (url : List Char) :
    ∀ (s : List Bookmark),
      (s.filter (siteIconCand url) = [] ∧ s.foldl (siteIconStep url) (none, 0) = (none, 0))
      ∨ (∃ bm ∈ s.filter (siteIconCand url),
          s.foldl (siteIconStep url) (none, 0) = (some bm.url.length, bm.icon)
          ∧ ∀ b ∈ s.filter (siteIconCand url), bm.url.length ≤ b.url.length) := by
  intro s
  induction s with
  | nil => exact Or.inl ⟨rfl, rfl⟩
  | cons b bs ih =>
      by_cases hcb : siteIconCand url b = true
      · have hfilter : (b :: bs).filter (siteIconCand url)
            = b :: bs.filter (siteIconCand url) := by
          simp [List.filter_cons, hcb]
        have hstep : siteIconStep url (none, 0) b = (some b.url.length, b.icon) := by
          simp [siteIconStep, hcb]
        obtain ⟨r, hr, hd, hle, hbound⟩ := siteIconFold_some url bs b.url.length b.icon
        right
        rcases hd with ⟨h1, h2⟩ | ⟨bm, hbm, h1, h2⟩
        · refine ⟨b, by rw [hfilter]; exact List.mem_cons_self _ _, ?_, ?_⟩
          · rw [List.foldl_cons, hstep, hr, h1, h2]
          · intro x hx
            rw [hfilter] at hx
            rcases List.mem_cons.mp hx with hxb | hxbs
            · subst hxb
              exact le_refl _
            · have := hbound x hxbs
              omega
        · refine ⟨bm, by rw [hfilter]; exact List.mem_cons_of_mem b hbm, ?_, ?_⟩
          · rw [List.foldl_cons, hstep, hr, h1, h2]
          · intro x hx
            rw [hfilter] at hx
            rcases List.mem_cons.mp hx with hxb | hxbs
            · subst hxb
              omega
            · have := hbound x hxbs
              omega
      · have hcb2 : siteIconCand url b = false := by
          cases h : siteIconCand url b
          · rfl
          · exact absurd h hcb
        have hfilter : (b :: bs).filter (siteIconCand url) = bs.filter (siteIconCand url) := by
          simp [List.filter_cons, hcb2]
        rw [List.foldl_cons, siteIconStep_not_cand url _ b hcb2]
        rcases ih with ⟨h1, h2⟩ | ⟨bm, hbm, h1, h2⟩
        · exact Or.inl ⟨by rw [hfilter]; exact h1, h2⟩
        · right
          refine ⟨bm, by rw [hfilter]; exact hbm, h1, ?_⟩
          intro x hx
          rw [hfilter] at hx
          exact h2 x hx

/-- C7 (amended): among the bookmarks that are tagged `user-icon`, share
the query URL's root case-insensitively **and have a nonzero icon** (the
`bm->icon` guard the claim omits), `siteIcon` returns the icon of one with
the shortest URL — and 0 when there is no such bookmark; in particular the
claim's two-bookmark scenario yields 0x41. -/
theorem siteIcon_shortest_match (s : List Bookmark) (url : List Char) (hne : url ≠ []) :
    ((s.filter (siteIconCand url) = [] → siteIcon_Bookmarks s url = 0)
     ∧ (s.filter (siteIconCand url) ≠ [] →
         ∃ bm ∈ s.filter (siteIconCand url),
           siteIcon_Bookmarks s url = bm.icon
           ∧ ∀ b ∈ s.filter (siteIconCand url), bm.url.length ≤ b.url.length))
    ∧ siteIcon_Bookmarks c7ScenarioStore "https://a.example/x/y".toList = 0x41 := by
  have hunfold : siteIcon_Bookmarks s url = (s.foldl (siteIconStep url) (none, 0)).2 := by
    unfold siteIcon_Bookmarks
    rw [if_neg hne]
  refine ⟨⟨?_, ?_⟩, by decide⟩
  · intro hempty
    rcases siteIconFold_start url s with ⟨_, h2⟩ | ⟨bm, hbm, _, _⟩
    · rw [hunfold, h2]
    · rw [hempty] at hbm
      cases hbm
  · intro hnonempty
    rcases siteIconFold_start url s with ⟨h1, _⟩ | ⟨bm, hbm, h1, h2⟩
    · exact absurd h1 hnonempty
    · exact ⟨bm, hbm, by rw [hunfold, h1], h2⟩

/-- Witness for C7 at the scenario store and query URL. -/
theorem siteIcon_shortest_match_witness :
    ("https://a.example/x/y".toList ≠ [])
    ∧ (((c7ScenarioStore.filter (siteIconCand "https://a.example/x/y".toList) = [] →
          siteIcon_Bookmarks c7ScenarioStore "https://a.example/x/y".toList = 0)
        ∧ (c7ScenarioStore.filter (siteIconCand "https://a.example/x/y".toList) ≠ [] →
            ∃ bm ∈ c7ScenarioStore.filter (siteIconCand "https://a.example/x/y".toList),
              siteIcon_Bookmarks c7ScenarioStore "https://a.example/x/y".toList = bm.icon
              ∧ ∀ b ∈ c7ScenarioStore.filter (siteIconCand "https://a.example/x/y".toList),
                  bm.url.length ≤ b.url.length))
       ∧ siteIcon_Bookmarks c7ScenarioStore "https://a.example/x/y".toList = 0x41) :=
  ⟨by decide,
   siteIcon_shortest_match c7ScenarioStore "https://a.example/x/y".toList (by decide)⟩

/-- C7 as stated is false: every bookmark of `c7ZeroStore` is tagged
`user-icon` and shares the query's root, the unique shortest-URL one has
icon 0, yet `siteIcon` returns 0x42 — the icon of the *longer* URL —
because bookmarks with icon 0 are skipped. -/
theorem siteIcon_zero_icon_counterexample :
    siteIcon_Bookmarks c7ZeroStore "https://a.example/x/y".toList = 0x42
    ∧ (∀ b ∈ c7ZeroStore,
        hasTagL b.tags userIconTag = true
        ∧ eqNoCase (urlRootOf b.url) (urlRootOf "https://a.example/x/y".toList) = true)
    ∧ (∀ a ∈ c7ZeroStore, (∀ b ∈ c7ZeroStore, a.url.length ≤ b.url.length) →
        a.icon ≠ 0x42) := by decide

/-! ## C2: the save/load round trip -/

lemma map_eq_self_of_mem (xs : List Bookmark) (g : Bookmark → Bookmark)
    (h : ∀ x ∈ xs, g x = x) : xs.map g = xs := by
  induction xs with
  | nil => rfl
  | cons a l ih =>
      rw [List.map_cons, h a (List.mem_cons_self a l),
          ih (fun x hx => h x (List.mem_cons_of_mem a hx))]

lemma updateById_append_last (xs : List Bookmark) (y : Bookmark) (i : Nat)
    (f : Bookmark → Bookmark) (hy : y.id = i) (hfresh : ∀ x ∈ xs, x.id ≠ i) :
    updateById (xs ++ [y]) i f = xs ++ [f y] := by
  unfold updateById
  rw [List.map_append]
  congr 1
  · apply map_eq_self_of_mem
    intro x hx
    rw [if_neg (hfresh x hx)]
  · simp [hy]

lemma insertHash_append_fresh (xs : List Bookmark) (bm : Bookmark)
    (hfresh : ∀ x ∈ xs, x.id ≠ bm.id) :
    insertHash xs bm = xs ++ [bm] := by
  unfold insertHash
  rw [if_neg]
  intro hany
  rw [List.any_eq_true] at hany
  obtain ⟨x, hx, hxe⟩ := hany
  exact hfresh x hx (by simpa using hxe)

lemma step_tableStart (m rf : Nat) (xs : List Bookmark) (i : Nat)
    (hfresh : ∀ x ∈ xs, x.id ≠ i) :
    handleEvent ⟨m, xs, rf, none⟩ (TomlEvent.tableStart i)
      = ⟨max m i, xs ++ [freshBookmark i], rf, some i⟩ := by
  unfold handleEvent
  simp only
  rw [insertHash_append_fresh xs (freshBookmark i) hfresh]

lemma step_tableEnd (m rf : Nat) (bs : List Bookmark) (cur : Option Nat) (j : Nat) :
    handleEvent ⟨m, bs, rf, cur⟩ (TomlEvent.tableEnd j) = ⟨m, bs, rf, none⟩ := rfl

lemma step_recentfolder (m rf : Nat) (bs : List Bookmark) (v : Int) :
    handleEvent ⟨m, bs, rf, none⟩ (TomlEvent.kvInt recentfolderKey v)
      = ⟨m, bs, v.toNat, none⟩ := by
  unfold handleEvent
  simp only
  rw [if_pos trivial]

lemma handleEvent_kvFn (st : LoaderState) (i : Nat) (e : TomlEvent)
    (f : Bookmark → Bookmark) (hcur : st.cur = some i) (hf : kvFn e = some f) :
    handleEvent st e = { st with bookmarks := updateById st.bookmarks i f } := by
  cases e with
  | tableStart j => simp [kvFn] at hf
  | tableEnd j => simp [kvFn] at hf
  | kvStr k v =>
      simp only [kvFn] at hf
      simp only [handleEvent, hcur]
      by_cases h1 : k = urlKey
      · rw [if_pos h1] at hf ⊢
        rw [Option.some.injEq] at hf
        rw [hf]
      · rw [if_neg h1] at hf ⊢
        by_cases h2 : k = titleKey
        · rw [if_pos h2] at hf ⊢
          rw [Option.some.injEq] at hf
          rw [hf]
        · rw [if_neg h2] at hf ⊢
          by_cases h3 : k = tagsKey
          · rw [if_pos h3] at hf ⊢
            rw [Option.some.injEq] at hf
            rw [hf]
          · rw [if_neg h3] at hf
            cases hf
  | kvInt k v =>
      simp only [kvFn] at hf
      simp only [handleEvent, hcur]
      by_cases h1 : k = iconKey
      · rw [if_pos h1] at hf ⊢
        rw [Option.some.injEq] at hf
        rw [hf]
      · rw [if_neg h1] at hf ⊢
        by_cases h2 : k = createdKey
        · rw [if_pos h2] at hf ⊢
          rw [Option.some.injEq] at hf
          rw [hf]
        · rw [if_neg h2] at hf ⊢
          by_cases h3 : k = parentKey
          · rw [if_pos h3] at hf ⊢
            rw [Option.some.injEq] at hf
            rw [hf]
          · rw [if_neg h3] at hf ⊢
            by_cases h4 : k = orderKey
            · rw [if_pos h4] at hf ⊢
              rw [Option.some.injEq] at hf
              rw [hf]
            · rw [if_neg h4] at hf
              cases hf

lemma kvFn_id (e : TomlEvent) (f : Bookmark → Bookmark) (hf : kvFn e = some f)
    (b : Bookmark) : (f b).id = b.id := by
  cases e with
  | tableStart j => simp [kvFn] at hf
  | tableEnd j => simp [kvFn] at hf
  | kvStr k v =>
      simp only [kvFn] at hf
      split_ifs at hf <;>
        (rw [Option.some.injEq] at hf; rw [← hf])
  | kvInt k v =>
      simp only [kvFn] at hf
      split_ifs at hf <;>
        (rw [Option.some.injEq] at hf; rw [← hf])

lemma foldl_kv_chain :
    ∀ (evs : List TomlEvent) (fs : List (Bookmark → Bookmark)),
      evs.map kvFn = fs.map some →
      ∀ (m rf : Nat) (xs : List Bookmark) (y : Bookmark) (i : Nat),
        y.id = i → (∀ x ∈ xs, x.id ≠ i) →
        evs.foldl handleEvent ⟨m, xs ++ [y], rf, some i⟩
          = ⟨m, xs ++ [fs.foldl (fun b f => f b) y], rf, some i⟩ := by
  intro evs
  induction evs with
  | nil =>
      intro fs hfs m rf xs y i _ _
      have : fs = [] := by
        cases fs with
        | nil => rfl
        | cons g gs => simp at hfs
      rw [this]
      rfl
  | cons e evs' ih =>
      intro fs hfs m rf xs y i hy hfr
      cases fs with
      | nil => simp at hfs
      | cons f fs' =>
          rw [List.map_cons, List.map_cons] at hfs
          rw [List.cons.injEq] at hfs
          obtain ⟨h1, h2⟩ := hfs
          rw [List.foldl_cons,
              handleEvent_kvFn ⟨m, xs ++ [y], rf, some i⟩ i e f rfl h1]
          simp only
          rw [updateById_append_last xs y i f hy hfr]
          have hyid : (f y).id = i := by rw [kvFn_id e f h1 y, hy]
          rw [ih fs' h2 m rf xs (f y) i hyid hfr]
          rw [List.foldl_cons]

lemma loadEntry_block (m rf : Nat) (xs : List Bookmark) (bm : Bookmark)
    (hfresh : ∀ x ∈ xs, x.id ≠ bm.id) :
    (saveEntry bm).foldl handleEvent ⟨m, xs, rf, none⟩
      = ⟨max m bm.id, xs ++ [loadedOf bm], rf, none⟩ := by
  by_cases hp : bm.parentId = 0 <;> by_cases ho : bm.order = 0
  · have hse : saveEntry bm = TomlEvent.tableStart bm.id ::
        ([TomlEvent.kvStr urlKey bm.url, TomlEvent.kvStr titleKey bm.title,
          TomlEvent.kvStr tagsKey bm.tags, TomlEvent.kvInt iconKey (bm.icon : Int),
          TomlEvent.kvInt createdKey (createdWritten bm.whenSec bm.whenNsec)]
         ++ [TomlEvent.tableEnd bm.id]) := by
      simp [saveEntry, hp, ho]
    rw [hse, List.foldl_cons, step_tableStart m rf xs bm.id hfresh, List.foldl_append,
        foldl_kv_chain _
          [fun b => { b with url := bm.url }, fun b => { b with title := bm.title },
           fun b => { b with tags := bm.tags },
           fun b => { b with icon := ((bm.icon : Int)).toNat },
           fun b => { b with whenSec := createdWritten bm.whenSec bm.whenNsec, whenNsec := 0 }]
          (by rfl) (max m bm.id) rf xs (freshBookmark bm.id) bm.id rfl hfresh,
        List.foldl_cons, step_tableEnd, List.foldl_nil]
    simp [loadedOf, freshBookmark, hp, ho, Int.toNat_natCast, List.foldl_cons, List.foldl_nil]
  · have hse : saveEntry bm = TomlEvent.tableStart bm.id ::
        ([TomlEvent.kvStr urlKey bm.url, TomlEvent.kvStr titleKey bm.title,
          TomlEvent.kvStr tagsKey bm.tags, TomlEvent.kvInt iconKey (bm.icon : Int),
          TomlEvent.kvInt createdKey (createdWritten bm.whenSec bm.whenNsec),
          TomlEvent.kvInt orderKey bm.order]
         ++ [TomlEvent.tableEnd bm.id]) := by
      simp [saveEntry, hp, ho]
    rw [hse, List.foldl_cons, step_tableStart m rf xs bm.id hfresh, List.foldl_append,
        foldl_kv_chain _
          [fun b => { b with url := bm.url }, fun b => { b with title := bm.title },
           fun b => { b with tags := bm.tags },
           fun b => { b with icon := ((bm.icon : Int)).toNat },
           fun b => { b with whenSec := createdWritten bm.whenSec bm.whenNsec, whenNsec := 0 },
           fun b => { b with order := bm.order }]
          (by rfl) (max m bm.id) rf xs (freshBookmark bm.id) bm.id rfl hfresh,
        List.foldl_cons, step_tableEnd, List.foldl_nil]
    simp [loadedOf, freshBookmark, hp, Int.toNat_natCast, List.foldl_cons, List.foldl_nil]
  · have hse : saveEntry bm = TomlEvent.tableStart bm.id ::
        ([TomlEvent.kvStr urlKey bm.url, TomlEvent.kvStr titleKey bm.title,
          TomlEvent.kvStr tagsKey bm.tags, TomlEvent.kvInt iconKey (bm.icon : Int),
          TomlEvent.kvInt createdKey (createdWritten bm.whenSec bm.whenNsec),
          TomlEvent.kvInt parentKey (bm.parentId : Int)]
         ++ [TomlEvent.tableEnd bm.id]) := by
      simp [saveEntry, hp, ho]
    rw [hse, List.foldl_cons, step_tableStart m rf xs bm.id hfresh, List.foldl_append,
        foldl_kv_chain _
          [fun b => { b with url := bm.url }, fun b => { b with title := bm.title },
           fun b => { b with tags := bm.tags },
           fun b => { b with icon := ((bm.icon : Int)).toNat },
           fun b => { b with whenSec := createdWritten bm.whenSec bm.whenNsec, whenNsec := 0 },
           fun b => { b with parentId := ((bm.parentId : Int)).toNat }]
          (by rfl) (max m bm.id) rf xs (freshBookmark bm.id) bm.id rfl hfresh,
        List.foldl_cons, step_tableEnd, List.foldl_nil]
    simp [loadedOf, freshBookmark, ho, Int.toNat_natCast, List.foldl_cons, List.foldl_nil]
  · have hse : saveEntry bm = TomlEvent.tableStart bm.id ::
        ([TomlEvent.kvStr urlKey bm.url, TomlEvent.kvStr titleKey bm.title,
          TomlEvent.kvStr tagsKey bm.tags, TomlEvent.kvInt iconKey (bm.icon : Int),
          TomlEvent.kvInt createdKey (createdWritten bm.whenSec bm.whenNsec),
          TomlEvent.kvInt parentKey (bm.parentId : Int), TomlEvent.kvInt orderKey bm.order]
         ++ [TomlEvent.tableEnd bm.id]) := by
      simp [saveEntry, hp, ho]
    rw [hse, List.foldl_cons, step_tableStart m rf xs bm.id hfresh, List.foldl_append,
        foldl_kv_chain _
          [fun b => { b with url := bm.url }, fun b => { b with title := bm.title },
           fun b => { b with tags := bm.tags },
           fun b => { b with icon := ((bm.icon : Int)).toNat },
           fun b => { b with whenSec := createdWritten bm.whenSec bm.whenNsec, whenNsec := 0 },
           fun b => { b with parentId := ((bm.parentId : Int)).toNat },
           fun b => { b with order := bm.order }]
          (by rfl) (max m bm.id) rf xs (freshBookmark bm.id) bm.id rfl hfresh,
        List.foldl_cons, step_tableEnd, List.foldl_nil]
    simp [loadedOf, freshBookmark, Int.toNat_natCast, List.foldl_cons, List.foldl_nil]

lemma loadBlocks :
    ∀ (bs : List Bookmark) (m rf : Nat) (xs : List Bookmark),
      (∀ b ∈ bs, ∀ x ∈ xs, x.id ≠ b.id) →
      (bs.map Bookmark.id).Nodup →
      ∃ m2, (bs.flatMap saveEntry).foldl handleEvent ⟨m, xs, rf, none⟩
        = ⟨m2, xs ++ bs.map loadedOf, rf, none⟩ := by
  intro bs
  induction bs with
  | nil =>
      intro m rf xs _ _
      exact ⟨m, by simp⟩
  | cons b bs' ih =>
      intro m rf xs hfr hnd
      rw [List.map_cons, List.nodup_cons] at hnd
      obtain ⟨hbnotin, hnd2⟩ := hnd
      have hflat : (b :: bs').flatMap saveEntry = saveEntry b ++ bs'.flatMap saveEntry := by
        simp [List.flatMap_cons]
      rw [hflat, List.foldl_append,
          loadEntry_block m rf xs b (fun x hx => hfr b (List.mem_cons_self b bs') x hx)]
      have hfr2 : ∀ c ∈ bs', ∀ x ∈ xs ++ [loadedOf b], x.id ≠ c.id := by
        intro c hc x hx
        rcases List.mem_append.mp hx with h | h
        · exact hfr c (List.mem_cons_of_mem b hc) x h
        · rw [List.mem_singleton] at h
          subst h
          intro hid
          apply hbnotin
          have hld : (loadedOf b).id = b.id := rfl
          rw [hld] at hid
          rw [hid]
          exact List.mem_map_of_mem Bookmark.id hc
      obtain ⟨m2, hm2⟩ := ih (max m b.id) rf (xs ++ [loadedOf b]) hfr2 hnd2
      refine ⟨m2, ?_⟩
      rw [hm2]
      simp [List.append_assoc]

lemma load_save_eq (d : Bookmarks) (hnd : (d.bookmarks.map Bookmark.id).Nodup) :
    ∃ m2, load_Bookmarks (save_Bookmarks d)
      = ⟨m2, (d.bookmarks.filter (fun bm => !hasTagL bm.tags remoteTag)).map loadedOf,
         d.recentFolderId, none⟩ := by
  unfold load_Bookmarks save_Bookmarks
  rw [List.foldl_cons, step_recentfolder]
  have hfr : ∀ b ∈ d.bookmarks.filter (fun bm => !hasTagL bm.tags remoteTag),
      ∀ x ∈ ([] : List Bookmark), x.id ≠ b.id := by
    intro _ _ x hx
    cases hx
  have hnd2 : ((d.bookmarks.filter (fun bm => !hasTagL bm.tags remoteTag)).map
      Bookmark.id).Nodup :=
    ((List.filter_sublist _).map Bookmark.id).nodup hnd
  obtain ⟨m2, hm⟩ := loadBlocks
    (d.bookmarks.filter (fun bm => !hasTagL bm.tags remoteTag))
    0 (((d.recentFolderId : Int)).toNat) [] hfr hnd2
  refine ⟨m2, ?_⟩
  rw [hm]
  simp [Int.toNat_natCast]

/-- C2 (amended): saving and re-loading reproduces every bookmark whose
tag string does not match `\bremote\b` with identical id, url, title,
tags, icon, parent and order; the creation time is reproduced only up to
rounding to the nearest whole second (`%.0f` writes whole seconds and the
loader reads an integer), and exactly when it was a whole number of
seconds; no remote-tagged bookmark is loaded back. -/
theorem saveLoad_roundTrip (d : Bookmarks) (hnd : (d.bookmarks.map Bookmark.id).Nodup) :
    (load_Bookmarks (save_Bookmarks d)).bookmarks
      = (d.bookmarks.filter (fun bm => !hasTagL bm.tags remoteTag)).map loadedOf
    ∧ (∀ bm ∈ d.bookmarks, hasTagL bm.tags remoteTag = false →
        ∃ b2 ∈ (load_Bookmarks (save_Bookmarks d)).bookmarks,
          b2.id = bm.id ∧ b2.url = bm.url ∧ b2.title = bm.title ∧ b2.tags = bm.tags
          ∧ b2.icon = bm.icon ∧ b2.parentId = bm.parentId ∧ b2.order = bm.order
          ∧ b2.whenSec = createdWritten bm.whenSec bm.whenNsec ∧ b2.whenNsec = 0
          ∧ (bm.whenNsec = 0 → b2.whenSec = bm.whenSec))
    ∧ (∀ b2 ∈ (load_Bookmarks (save_Bookmarks d)).bookmarks,
        hasTagL b2.tags remoteTag = false) := by
  obtain ⟨m2, hload⟩ := load_save_eq d hnd
  have hbooks : (load_Bookmarks (save_Bookmarks d)).bookmarks
      = (d.bookmarks.filter (fun bm => !hasTagL bm.tags remoteTag)).map loadedOf := by
    rw [hload]
  refine ⟨hbooks, ?_, ?_⟩
  · intro bm hbm hnr
    have hmemf : bm ∈ d.bookmarks.filter (fun bm => !hasTagL bm.tags remoteTag) :=
      List.mem_filter.mpr ⟨hbm, by simp [hnr]⟩
    refine ⟨loadedOf bm, by rw [hbooks]; exact List.mem_map_of_mem loadedOf hmemf,
            rfl, rfl, rfl, rfl, rfl, rfl, rfl, rfl, rfl, ?_⟩
    intro h0
    show createdWritten bm.whenSec bm.whenNsec = bm.whenSec
    rw [h0]
    simp [createdWritten]
  · intro b2 hb2
    rw [hbooks] at hb2
    obtain ⟨bm, hbmf, rfl⟩ := List.mem_map.mp hb2
    rw [List.mem_filter] at hbmf
    have h3 := hbmf.2
    show hasTagL bm.tags remoteTag = false
    simpa using h3

/-- Witness for C2 at `c2Store`. -/
theorem saveLoad_roundTrip_witness :
    ((c2Store.bookmarks.map Bookmark.id).Nodup)
    ∧ ((load_Bookmarks (save_Bookmarks c2Store)).bookmarks
        = (c2Store.bookmarks.filter (fun bm => !hasTagL bm.tags remoteTag)).map loadedOf
       ∧ (∀ bm ∈ c2Store.bookmarks, hasTagL bm.tags remoteTag = false →
           ∃ b2 ∈ (load_Bookmarks (save_Bookmarks c2Store)).bookmarks,
             b2.id = bm.id ∧ b2.url = bm.url ∧ b2.title = bm.title ∧ b2.tags = bm.tags
             ∧ b2.icon = bm.icon ∧ b2.parentId = bm.parentId ∧ b2.order = bm.order
             ∧ b2.whenSec = createdWritten bm.whenSec bm.whenNsec ∧ b2.whenNsec = 0
             ∧ (bm.whenNsec = 0 → b2.whenSec = bm.whenSec))
       ∧ (∀ b2 ∈ (load_Bookmarks (save_Bookmarks c2Store)).bookmarks,
           hasTagL b2.tags remoteTag = false)) :=
  ⟨by decide, saveLoad_roundTrip c2Store (by decide)⟩

/-- C2 as stated is false for the `created` field: a creation time of
100.25 s is saved as the whole second 100 by `%.0f` and loaded back as
exactly 100 s, so the non-remote bookmark is not reproduced with an
identical `created` field. -/
theorem saveLoad_created_counterexample :
    ((load_Bookmarks (save_Bookmarks c2FracStore)).bookmarks.map
        (fun b => (b.whenSec, b.whenNsec))) = [((100 : Int), (0 : Nat))]
    ∧ (c2FracStore.bookmarks.map (fun b => (b.whenSec, b.whenNsec)))
        = [((100 : Int), (250000000 : Nat))]
    ∧ (((100 : Int), (0 : Nat)) ≠ ((100 : Int), (250000000 : Nat))) := by decide

/-! ## C8: the fetched-link merge deduplicates against existing URLs -/

/-- C8: for a parsed link line, when the resolved canonical URL already
belongs to some bookmark (`findUrl` nonzero) the store is unchanged, and
when it is fresh exactly one bookmark is appended — tagged `remote`, icon
0x2913, parented under the originating source bookmark, titled by the
link's label or (when the label is empty) the link's host; in the claim's
scenario — a successful fetch returning two link lines, one duplicating an
existing URL — exactly one new remote-tagged bookmark is created. -/
theorem processLine_dedup (d : Bookmarks) (baseUrl : List Char) (srcId : Nat)
    (addToBottom : Bool) (nowSec : Int) (nowNsec : Nat) (line u label : List Char)
    (hparse : parseLink line = some (u, label))
    (hid : ∀ b ∈ d.bookmarks, b.id ≠ d.idEnum + 1) :
    (findUrl_Bookmarks d.bookmarks (canonicalUrl (absoluteUrl baseUrl u)) ≠ 0 →
      processLine addToBottom nowSec nowNsec baseUrl srcId d line = d)
    ∧ (findUrl_Bookmarks d.bookmarks (canonicalUrl (absoluteUrl baseUrl u)) = 0 →
        (processLine addToBottom nowSec nowNsec baseUrl srcId d line).bookmarks
          = d.bookmarks ++
            [{ id := d.idEnum + 1,
               url := canonicalUrl (canonicalUrl (absoluteUrl baseUrl u)),
               title := if label = [] then urlHost u else label,
               tags := remoteTag, icon := 0x2913,
               whenSec := nowSec, whenNsec := nowNsec, parentId := srcId,
               order := if addToBottom then (orderRange_Bookmarks d.bookmarks).2
                        else (orderRange_Bookmarks d.bookmarks).1 - 1 }]
        ∧ (processLine addToBottom nowSec nowNsec baseUrl srcId d line).idEnum
            = d.idEnum + 1)
    ∧ ((requestFinished_Bookmarks ⟨c8Store, [7]⟩ 7 true true 0 0
          "gemini://host/".toList 3 "=> /a Dup\n=> /b Fresh".toList).1.store.bookmarks.length
        = c8Store.bookmarks.length + 1
       ∧ ((requestFinished_Bookmarks ⟨c8Store, [7]⟩ 7 true true 0 0
            "gemini://host/".toList 3 "=> /a Dup\n=> /b Fresh".toList).1.store.bookmarks.filter
              (fun b => hasTagL b.tags remoteTag)).length = 1
       ∧ ∀ b ∈ (requestFinished_Bookmarks ⟨c8Store, [7]⟩ 7 true true 0 0
            "gemini://host/".toList 3 "=> /a Dup\n=> /b Fresh".toList).1.store.bookmarks,
          hasTagL b.tags remoteTag = true →
            b.parentId = 3 ∧ b.url = "gemini://host/b".toList
            ∧ b.title = "Fresh".toList ∧ b.icon = 0x2913) := by
  refine ⟨?_, ?_, by decide⟩
  · intro hfound
    unfold processLine
    rw [hparse]
    simp only
    rw [if_pos hfound]
  · intro hfresh
    unfold processLine
    rw [hparse]
    simp only
    rw [if_neg (fun hc => hc hfresh)]
    unfold add_Bookmarks
    simp only
    constructor
    · rw [updateById_append_last d.bookmarks _ (d.idEnum + 1) _ rfl hid]
    · trivial

/-- Witness for C8 at `c8Store` and the link line `=> /b Fresh`. -/
theorem processLine_dedup_witness :
    (parseLink "=> /b Fresh".toList = some ("/b".toList, "Fresh".toList)
     ∧ (∀ b ∈ c8Store.bookmarks, b.id ≠ c8Store.idEnum + 1))
    ∧ ((findUrl_Bookmarks c8Store.bookmarks
          (canonicalUrl (absoluteUrl "gemini://host/".toList "/b".toList)) ≠ 0 →
        processLine true 0 0 "gemini://host/".toList 3 c8Store "=> /b Fresh".toList = c8Store)
       ∧ (findUrl_Bookmarks c8Store.bookmarks
            (canonicalUrl (absoluteUrl "gemini://host/".toList "/b".toList)) = 0 →
          (processLine true 0 0 "gemini://host/".toList 3 c8Store
              "=> /b Fresh".toList).bookmarks
            = c8Store.bookmarks ++
              [{ id := c8Store.idEnum + 1,
                 url := canonicalUrl (canonicalUrl
                   (absoluteUrl "gemini://host/".toList "/b".toList)),
                 title := if "Fresh".toList = ([] : List Char) then urlHost "/b".toList
                          else "Fresh".toList,
                 tags := remoteTag, icon := 0x2913,
                 whenSec := 0, whenNsec := 0, parentId := 3,
                 order := if true then (orderRange_Bookmarks c8Store.bookmarks).2
                          else (orderRange_Bookmarks c8Store.bookmarks).1 - 1 }]
          ∧ (processLine true 0 0 "gemini://host/".toList 3 c8Store
              "=> /b Fresh".toList).idEnum = c8Store.idEnum + 1)
       ∧ ((requestFinished_Bookmarks ⟨c8Store, [7]⟩ 7 true true 0 0
            "gemini://host/".toList 3 "=> /a Dup\n=> /b Fresh".toList).1.store.bookmarks.length
          = c8Store.bookmarks.length + 1
         ∧ ((requestFinished_Bookmarks ⟨c8Store, [7]⟩ 7 true true 0 0
              "gemini://host/".toList 3 "=> /a Dup\n=> /b Fresh".toList).1.store.bookmarks.filter
                (fun b => hasTagL b.tags remoteTag)).length = 1
         ∧ ∀ b ∈ (requestFinished_Bookmarks ⟨c8Store, [7]⟩ 7 true true 0 0
              "gemini://host/".toList 3 "=> /a Dup\n=> /b Fresh".toList).1.store.bookmarks,
            hasTagL b.tags remoteTag = true →
              b.parentId = 3 ∧ b.url = "gemini://host/b".toList
              ∧ b.title = "Fresh".toList ∧ b.icon = 0x2913)) :=
  ⟨⟨by decide, by decide⟩,
   processLine_dedup c8Store "gemini://host/".toList 3 true 0 0
     "=> /b Fresh".toList "/b".toList "Fresh".toList (by decide) (by decide)⟩
